import Mathlib

/-!
Verification development for `include/linq.hpp` of flame-linq.

`linq::linq_vec<_Ty>` publicly extends `std::vector<_Ty>`; a vector is embedded as a
`List`.  Unchecked element access (`operator[]`, raw `data[i]`) is embedded as an
`Option`: `none` stands for an access outside `[0, size())`, which the C++ program
leaves undefined.  Thrown exceptions are embedded as `Except Exception`.
`size_t` is a 64-bit unsigned integer: it is a `Nat` reduced modulo `2 ^ 64` at the
places where the source can wrap around.  A fixed-width integer accumulator is a
`machine_int`, an integer in the range of its type whose addition is reduced to its width.
-/

namespace linq

/-- Number of values of `size_t` (64-bit unsigned). -/
def SIZE_MAX_SUCC : Nat := 2 ^ 64

/-- The exceptions the library can raise: `std::logic_error(what)` thrown by the library
itself and `std::out_of_range` thrown by `std::vector::at(pos)` when `pos >= size()`. -/
inductive Exception where
  | logic_error (what : String)
  | out_of_range (pos size : Nat)
  deriving DecidableEq

deriving instance DecidableEq for Except

/-- The value `throw ::std::logic_error("array is empty")` raises. -/
def EmptyCollectionError : Exception := Exception.logic_error "array is empty"

/-- The value `throw ::std::logic_error("no elements match the given conditional")` raises. -/
def NotFoundError : Exception := Exception.logic_error "no elements match the given conditional"

/-- Unchecked read `v[i]`: defined only inside the bounds. -/
def vec_index {α : Type} (v : List α) (i : Nat) : Option α := v[i]?

/-- Unchecked write `v[i] = x`: defined only inside the bounds. -/
def vec_assign {α : Type} (v : List α) (i : Nat) (x : α) : Option (List α) :=
  if i < v.length then some (v.set i x) else none

/-- Checked read `v.at(pos)`: throws `std::out_of_range` outside the bounds. -/
def vec_at {α : Type} (v : List α) (pos : Nat) : Except Exception α :=
  match v[pos]? with
  | some x => Except.ok x
  | none => Except.error (Exception.out_of_range pos v.length)

/-- Constructor `vector(n)`: `n` value-initialised elements. -/
def vec_sized {α : Type} [Inhabited α] (n : Nat) : List α := List.replicate n default

/-- Member `resize(n)`: truncate, or pad with value-initialised elements. -/
def vec_resize {α : Type} [Inhabited α] (v : List α) (n : Nat) : List α :=
  v.take n ++ List.replicate (n - v.length) default

/-- The counting loop `for (; c < bound; c++) body(c)` over a state `σ`; a body that
performs an undefined access aborts the loop with `none`.  The first argument bounds the
number of iterations: the loop is always entered with it equal to `bound - c`, so it
reaches `0` exactly when the test `c < bound` fails. -/
def forLoop {σ : Type} (body : Nat → σ → Option σ) (bound : Nat) : Nat → Nat → σ → Option σ
  | 0, _, s => some s
  | fuel + 1, c, s =>
    if c < bound then (body c s).bind (forLoop body bound fuel (c + 1)) else some s

/-- Least value of a fixed-width integer type of `bits` bits: `-2 ^ (bits - 1)` for a
signed (two's complement) type, `0` for an unsigned one. -/
def machine_int.lo (signed : Bool) (bits : Nat) : Int :=
  if signed then -(2 ^ (bits - 1)) else 0

/-- The values a fixed-width integer type of `bits` bits can hold. -/
def machine_int.in_range (signed : Bool) (bits : Nat) (z : Int) : Prop :=
  machine_int.lo signed bits ≤ z ∧ z < machine_int.lo signed bits + 2 ^ bits

instance machine_int.decidable_in_range (signed : Bool) (bits : Nat) (z : Int) :
    Decidable (machine_int.in_range signed bits z) :=
  inferInstanceAs (Decidable (_ ∧ _))

/-- Reduction of a mathematical integer modulo `2 ^ bits` into the range of the type: the
value a fixed-width register holds after an addition.  For an unsigned type this is what
C++ prescribes; for a signed type C++ leaves overflow undefined and this is the two's
complement result. -/
def machine_int.wrap_val (signed : Bool) (bits : Nat) (z : Int) : Int :=
  machine_int.lo signed bits + (z - machine_int.lo signed bits) % 2 ^ bits

/-- A fixed-width integer result type `_Ret` (`int`, `unsigned`, `long`, ...): an integer
in the range of the type. -/
structure machine_int (signed : Bool) (bits : Nat) where
  val : Int
  range : machine_int.in_range signed bits val

/-- The value of the type that a mathematical integer is reduced to. -/
def machine_int.wrap (signed : Bool) (bits : Nat) (z : Int) : machine_int signed bits :=
  ⟨machine_int.wrap_val signed bits z,
    ⟨le_add_of_nonneg_right (Int.emod_nonneg _ (pow_ne_zero bits (by decide))),
      add_lt_add_left (Int.emod_lt_of_pos _ (pow_pos (by decide) bits)) _⟩⟩

/-- The object `memset(&result, 0, sizeof(_Ret))` leaves: all bits zero, the value `0`. -/
instance machine_int.instZero (signed : Bool) (bits : Nat) : Zero (machine_int signed bits) :=
  ⟨machine_int.wrap signed bits 0⟩

/-- The operator `+` (and `+=`) of the type: the sum is reduced to `bits` bits. -/
instance machine_int.instAdd (signed : Bool) (bits : Nat) : Add (machine_int signed bits) :=
  ⟨fun a b => machine_int.wrap signed bits (a.val + b.val)⟩

namespace core

/-- Source `core::less<>`, lines 95-112: transparent functor for `operator<`. -/
def less {α : Type} [LT α] [DecidableRel (fun a b : α => a < b)] (_Left _Right : α) : Bool :=
  decide (_Left < _Right)

/-- Source `core::more<>`, lines 57-74: transparent functor for `operator>`. -/
def more {α : Type} [LT α] [DecidableRel (fun a b : α => a < b)] (_Left _Right : α) : Bool :=
  decide (_Left > _Right)

end core

/-- Source `ascending()`, line 132. -/
def ascending {α : Type} [LT α] [DecidableRel (fun a b : α => a < b)] : α → α → Bool :=
  core.less

/-- Source `descending()`, line 134. -/
def descending {α : Type} [LT α] [DecidableRel (fun a b : α => a < b)] : α → α → Bool :=
  core.more

/-- One insertion step of `std_sort`: `x` goes in front of the first element it must
precede according to `pred`. -/
def sort_insert {α : Type} (pred : α → α → Bool) (x : α) : List α → List α
  | [] => [x]
  | y :: ys => if pred x y then x :: y :: ys else y :: sort_insert pred x ys

/-- The standard library's `std::sort(first, last, pred)`, which is not part of the
repository.  The C++ standard fixes its result only up to the order of equivalent
elements: the range is rearranged (a permutation) so that no element is preceded, under
`pred`, by a later one.  It is embedded as an insertion sort driven by `pred`; for an
ordering in which equivalent elements are equal (integers under `<` or `>`) every
conforming implementation produces this same list, which the theorems about `orderby`
state as part of their conclusion. -/
def std_sort {α : Type} (pred : α → α → Bool) : List α → List α
  | [] => []
  | x :: xs => sort_insert pred x (std_sort pred xs)

/-- The standard library's `std::unordered_map<K, V>`, which is not part of the
repository: a finite map with one entry per key.  It is embedded as an association list
in which every key occurs once; the C++ iteration order is unspecified, so the theorems
only speak about lookups. -/
abbrev unordered_map (κ ν : Type) : Type := List (κ × ν)

/-- Lookup `m.find(k)`: the value stored under `k`, if there is one. -/
def unordered_map.find {κ ν : Type} [DecidableEq κ] : unordered_map κ ν → κ → Option ν
  | [], _ => none
  | (k', v) :: rest, k => if k' = k then some v else unordered_map.find rest k

/-- Access `m[k]` followed by an update `f` of the referenced value: when `k` is absent,
`operator[]` first inserts the value-initialised element `init`. -/
def unordered_map.subscript {κ ν : Type} [DecidableEq κ] (init : ν) (f : ν → ν) :
    unordered_map κ ν → κ → unordered_map κ ν
  | [], k => [(k, f init)]
  | (k', v) :: rest, k =>
    if k' = k then (k', f v) :: rest
    else (k', v) :: unordered_map.subscript init f rest k

namespace linq_vec

/-- Source `select(selector, result)`, lines 195-201: resize the result and fill it
index by index. -/
def select_into {α β : Type} [Inhabited β] (self : List α) (selector : α → β)
    (result : List β) : Option (List β) :=
  let result := vec_resize result self.length
  let l := self.length
  forLoop (fun c result => (vec_index self c).bind fun x => vec_assign result c (selector x))
    l l 0 result

/-- Source `select(selector)`, lines 209-214. -/
def select {α β : Type} [Inhabited β] (self : List α) (selector : α → β) : Option (List β) :=
  select_into self selector (vec_sized self.length)

/-- First loop of `where`, lines 223-231: the indices of the elements to keep. -/
def where_keep {α : Type} (self : List α) (condition : α → Bool) : Option (List Nat) :=
  let l := self.length
  forLoop (fun c keep => (vec_index self c).bind fun x =>
      if condition x then some (keep ++ [c]) else some keep)
    l l 0 []

/-- Source `where(condition)`, lines 221-240. -/
def where_ {α : Type} [Inhabited α] (self : List α) (condition : α → Bool) :
    Option (List α) :=
  (where_keep self condition).bind fun keep =>
    let l := keep.length
    forLoop (fun c result => (vec_index keep c).bind fun k =>
        (vec_index self k).bind fun x => vec_assign result c x)
      l l 0 (vec_sized keep.length)

/-- Source `reverse()`, lines 455-465.  `half` is computed and never read; `size--` is
`size_t` arithmetic, so it wraps to `2 ^ 64 - 1` on an empty receiver; the loop runs
`c = 0 .. size - 1` over the decremented `size` and swaps `data[c]` with `data[size - c]`
through raw pointer accesses. -/
def reverse {α : Type} (self : List α) : Option (List α) :=
  let size := self.length
  let _half := size >>> 1
  let size := (size + SIZE_MAX_SUCC - 1) % SIZE_MAX_SUCC
  forLoop (fun c data =>
      (vec_index data c).bind fun tmp =>
        (vec_index data (size - c)).bind fun other =>
          (vec_assign data c other).bind fun data =>
            vec_assign data (size - c) tmp)
    size size 0 self

/-- Source `join(arr, merge, on)`, lines 263-274: two nested range-`for` loops that
`push_back` onto `merged`. -/
def join {α β γ : Type} (self : List α) (arr : List β) (merge : α → β → γ)
    (on_ : α → β → Bool) : List γ :=
  self.foldl (fun merged first =>
    arr.foldl (fun merged second =>
      if on_ first second then merged ++ [merge first second] else merged) merged) []

/-- Source `orderby(pred)`, lines 248-252: `std::sort(begin(), end(), pred)`. -/
def orderby {α : Type} (self : List α) (pred : α → α → Bool) : List α :=
  std_sort pred self

/-- Source `first()`, lines 291-296. -/
def first {α : Type} (self : List α) : Except Exception α :=
  if h : self.length > 0 then
    Except.ok (self.get ⟨0, h⟩)
  else
    Except.error EmptyCollectionError

/-- Source `first(condition)`, lines 304-311: forward iterator loop. -/
def first_condition {α : Type} (condition : α → Bool) : List α → Except Exception α
  | [] => Except.error NotFoundError
  | x :: rest => if condition x then Except.ok x else first_condition condition rest

/-- Source `last()`, lines 328-334.  `pos` is a `size_t`: `size() - 1` wraps on the
empty receiver, and the test `pos >= 0` is a test on an unsigned value. -/
def last {α : Type} (self : List α) : Except Exception α :=
  let pos := (self.length + SIZE_MAX_SUCC - 1) % SIZE_MAX_SUCC
  if pos ≥ 0 then
    vec_at self pos
  else
    Except.error EmptyCollectionError

/-- Source `first_or_default(defaultValue, condition)`, lines 319-322: `try` the search,
`catch (...)` gives the default. -/
def first_or_default {α : Type} (defaultValue : α) (condition : α → Bool) (self : List α) : α :=
  match first_condition condition self with
  | Except.ok x => x
  | Except.error _ => defaultValue

/-- The iterator loop of `last(condition)` over the elements from `rbegin()` to `rend()`,
given in the order the reverse iterator visits them. -/
def last_condition_loop {α : Type} (condition : α → Bool) : List α → Except Exception α
  | [] => Except.error NotFoundError
  | x :: rest => if condition x then Except.ok x else last_condition_loop condition rest

/-- Source `last(condition)`, lines 342-349: reverse iterator loop. -/
def last_condition {α : Type} (condition : α → Bool) (self : List α) : Except Exception α :=
  last_condition_loop condition self.reverse

/-- Source `last_or_default(defaultValue, condition)`, lines 357-360. -/
def last_or_default {α : Type} (defaultValue : α) (condition : α → Bool) (self : List α) : α :=
  match last_condition condition self with
  | Except.ok x => x
  | Except.error _ => defaultValue

/-- Source `any()`, lines 366-368. -/
def any {α : Type} (self : List α) : Bool :=
  decide (self.length > 0)

/-- Source `any(condition)`, lines 374-381: forward iterator loop with early return. -/
def any_condition {α : Type} (condition : α → Bool) : List α → Bool
  | [] => false
  | x :: rest => if condition x then true else any_condition condition rest

/-- Source `sum(value_selector)`, lines 390-397: `result` is zeroed with `memset`, then
`result += value_selector(*it)` for every element.  `_Ret` is any type with a zero object
and an addition; for an integer result it is a `machine_int`, whose addition is reduced
to the width of the type. -/
def sum {α β : Type} [Zero β] [Add β] (self : List α) (value_selector : α → β) : β :=
  self.foldl (fun result x => result + value_selector x) 0

/-- The loop of `comp_select`, lines 442-447, from index `c` on.  The state is the current
`result` together with the arguments `value_selector` has been called on so far. -/
def comp_select_loop {α β : Type} (self : List α) (value_selector : α → β)
    (pred : β → β → Bool) (size : Nat) : Nat → Nat → β × List α → Except Exception (β × List α)
  | 0, _, state => Except.ok state
  | fuel + 1, c, (result, calls) =>
    if c < size then
      match vec_at self c with
      | Except.error e => Except.error e
      | Except.ok x =>
        let tmp := value_selector x
        comp_select_loop self value_selector pred size fuel (c + 1)
          (if pred tmp result then tmp else result, calls ++ [x])
    else Except.ok (result, calls)

/-- Source `comp_select(value_selector, pred)`, lines 436-449, with the list of the
arguments of the calls of `value_selector` as a second result.  `result` is zeroed with
`memset`; the elements are read with the checked `at`. -/
def comp_select_calls {α β : Type} [Zero β] (self : List α) (value_selector : α → β)
    (pred : β → β → Bool) : Except Exception (β × List α) :=
  let result : β := 0
  let size := self.length
  if size > 0 then
    match vec_at self 0 with
    | Except.error e => Except.error e
    | Except.ok x =>
      comp_select_loop self value_selector pred size (size - 1) 1 (value_selector x, [x])
  else Except.ok (result, [])

/-- Source `comp_select(value_selector, pred)`, lines 436-449: the value it returns. -/
def comp_select {α β : Type} [Zero β] (self : List α) (value_selector : α → β)
    (pred : β → β → Bool) : Except Exception β :=
  match comp_select_calls self value_selector pred with
  | Except.ok (result, _) => Except.ok result
  | Except.error e => Except.error e

/-- Source `min()`, line 404. -/
def min {α : Type} [Zero α] [LT α] [DecidableRel (fun a b : α => a < b)] (self : List α) :
    Except Exception α :=
  comp_select self (fun x => x) ascending

/-- Source `min(value_selector)`, line 412. -/
def min_select {α β : Type} [Zero β] [LT β] [DecidableRel (fun a b : β => a < b)]
    (self : List α) (value_selector : α → β) : Except Exception β :=
  comp_select self value_selector ascending

/-- Source `max()`, line 418. -/
def max {α : Type} [Zero α] [LT α] [DecidableRel (fun a b : α => a < b)] (self : List α) :
    Except Exception α :=
  comp_select self (fun x => x) descending

/-- Source `max(value_selector)`, line 426. -/
def max_select {α β : Type} [Zero β] [LT β] [DecidableRel (fun a b : β => a < b)]
    (self : List α) (value_selector : α → β) : Except Exception β :=
  comp_select self value_selector descending

/-- Source `map(key_selector)`, lines 474-480: `map[key_selector(*it)] = *it`. -/
def map {α κ : Type} [DecidableEq κ] [Inhabited α] (self : List α) (key_selector : α → κ) :
    unordered_map κ α :=
  self.foldl (fun map x => unordered_map.subscript default (fun _ => x) map (key_selector x)) []

/-- Source `map(key_selector, value_selector)`, lines 490-496. -/
def map_value {α κ ν : Type} [DecidableEq κ] [Inhabited ν] (self : List α)
    (key_selector : α → κ) (value_selector : α → ν) : unordered_map κ ν :=
  self.foldl (fun map x =>
    unordered_map.subscript default (fun _ => value_selector x) map (key_selector x)) []

/-- Source `group_by(key_selector)`, lines 505-511: `map[key_selector(*it)].push_back(*it)`;
a new key starts from the empty vector. -/
def group_by {α κ : Type} [DecidableEq κ] (self : List α) (key_selector : α → κ) :
    unordered_map κ (List α) :=
  self.foldl (fun map x =>
    unordered_map.subscript [] (fun group => group ++ [x]) map (key_selector x)) []

/-- Source `group_by(key_selector, value_selector)`, lines 520-526. -/
def group_by_value {α κ ν : Type} [DecidableEq κ] (self : List α)
    (key_selector : α → κ) (value_selector : α → ν) : unordered_map κ (List ν) :=
  self.foldl (fun map x =>
    unordered_map.subscript [] (fun group => group ++ [value_selector x]) map
      (key_selector x)) []

end linq_vec

end linq

namespace linq

/-! ## Loops -/

/-- Invariant rule for the counting loop: an invariant that every iteration re-establishes
without failing holds when the loop exits, and the loop does not fail. -/
theorem forLoop_invariant {σ : Type} (body : Nat → σ → Option σ) (bound : Nat)
    (Inv : Nat → σ → Prop)
    (hstep : ∀ c s, c < bound → Inv c s → ∃ s', body c s = some s' ∧ Inv (c + 1) s') :
    ∀ fuel c s, c + fuel = bound → Inv c s →
      ∃ s', forLoop body bound fuel c s = some s' ∧ Inv bound s' := by
  intro fuel
  induction fuel with
  | zero =>
    intro c s hc hinv
    have : c = bound := by omega
    subst this
    exact ⟨s, rfl, hinv⟩
  | succ k ih =>
    intro c s hc hinv
    have hlt : c < bound := by omega
    obtain ⟨s1, hb, hinv1⟩ := hstep c s hlt hinv
    obtain ⟨s2, hrun, hinv2⟩ := ih (c + 1) s1 (by omega) hinv1
    refine ⟨s2, ?_, hinv2⟩
    simp [forLoop, hlt, hb, hrun]

/-- A loop that writes the `c`-th element of a list `L` at index `c` of a buffer of the
same length produces `L`. -/
theorem forLoop_fill {β : Type} (body : Nat → List β → Option (List β)) (L init : List β)
    (hlen : init.length = L.length)
    (hbody : ∀ c r, (h : c < L.length) → r.length = L.length →
      body c r = some (r.set c (L.get ⟨c, h⟩))) :
    forLoop body L.length L.length 0 init = some L := by
  obtain ⟨r, hr, hl, hinv⟩ := forLoop_invariant body L.length
    (fun c r => r.length = L.length ∧ ∀ i, i < c → r[i]? = L[i]?)
    (by
      intro c r hc hinv
      obtain ⟨hl, hpre⟩ := hinv
      refine ⟨_, hbody c r hc hl, by simpa using hl, ?_⟩
      intro i hi
      by_cases hic : i = c
      · subst hic
        simp [List.getElem?_set, hl, hc]
      · rw [List.getElem?_set_ne (Ne.symm hic)]
        exact hpre i (by omega))
    L.length 0 init (by simp) ⟨hlen, by intro i hi; omega⟩
  rw [hr]
  congr 1
  apply List.ext_getElem? 
  intro i
  by_cases hi : i < L.length
  · exact hinv i hi
  · rw [List.getElem?_eq_none (by omega), List.getElem?_eq_none (by omega)]

namespace linq_vec

/-! ## `select` and `where` -/

/-- The filling loop of `select` computes the image list and never leaves the bounds. -/
theorem select_eq_map {α β : Type} [Inhabited β] (self : List α) (selector : α → β) :
    select self selector = some (self.map selector) := by
  have h := forLoop_fill
    (fun c result => (vec_index self c).bind fun x => vec_assign result c (selector x))
    (self.map selector) (vec_resize (vec_sized self.length : List β) self.length)
    (by simp [vec_resize, vec_sized])
    (by
      intro c r hc hl
      have hc1 : c < self.length := by simpa using hc
      have hc2 : c < r.length := by omega
      simp [vec_index, vec_assign, List.getElem?_eq_getElem hc1, hc2])
  simpa [select, select_into] using h

/-- The first loop of `where` collects, in increasing order, indices that all lie inside
the receiver and whose elements are the ones satisfying the condition. -/
theorem where_keep_spec {α : Type} (self : List α) (condition : α → Bool) :
    ∃ keep, where_keep self condition = some keep ∧
      keep.map (fun k => self[k]?) = (self.filter condition).map some := by
  obtain ⟨keep, hk, hinv⟩ := forLoop_invariant
    (fun c keep => (vec_index self c).bind fun x =>
      if condition x then some (keep ++ [c]) else some keep)
    self.length
    (fun c keep => keep.map (fun k => self[k]?) = ((self.take c).filter condition).map some)
    (by
      intro c keep hc hinv
      have hx : self[c]? = some self[c] := List.getElem?_eq_getElem hc
      by_cases hcond : condition self[c] = true
      · refine ⟨keep ++ [c], by simp [vec_index, hx, hcond], ?_⟩
        show List.map (fun k => self[k]?) _ = _
        rw [List.take_succ, hx]
        simp only [List.map_append, List.filter_append, hinv, Option.toList, List.filter_cons,
          hcond, List.filter_nil, List.map_cons, List.map_nil, List.append_nil, if_true,
          if_false, Bool.false_eq_true]
        try rw [hx]
      · refine ⟨keep, by simp [vec_index, hx, hcond], ?_⟩
        show List.map (fun k => self[k]?) _ = _
        rw [List.take_succ, hx]
        simp only [List.map_append, List.filter_append, hinv, Option.toList, List.filter_cons,
          hcond, List.filter_nil, List.map_cons, List.map_nil, List.append_nil, if_true,
          if_false, Bool.false_eq_true]
        try rw [hx])
    self.length 0 [] (by simp) (by simp)
  refine ⟨keep, hk, ?_⟩
  simpa using hinv

/-- The copy loop of `where` reads the kept indices inside the bounds and produces the
filtered list. -/
theorem where_some_filter {α : Type} [Inhabited α] (self : List α) (condition : α → Bool) :
    where_ self condition = some (self.filter condition) := by
  obtain ⟨keep, hk, hmap⟩ := where_keep_spec self condition
  have hlen : keep.length = (self.filter condition).length := by
    have := congrArg List.length hmap
    simpa using this
  have h := forLoop_fill
    (fun c result => (vec_index keep c).bind fun k =>
        (vec_index self k).bind fun x => vec_assign result c x)
    (self.filter condition) (vec_sized keep.length : List α)
    (by simp [vec_sized, hlen])
    (by
      intro c r hc hl
      have hc1 : c < keep.length := by omega
      have hc2 : c < r.length := by omega
      have hget := congrArg (fun l => l[c]?) hmap
      simp only [List.getElem?_map, List.getElem?_eq_getElem hc1,
        List.getElem?_eq_getElem hc, Option.map_some'] at hget
      have hget1 : self[keep[c]]? = some (self.filter condition)[c] := by
        simpa using hget
      simp [vec_index, vec_assign, List.getElem?_eq_getElem hc1, hget1, hc2])
  rw [hlen] at h
  simp only [where_, hk, Option.some_bind, hlen]
  exact h

/-- C1: for every sequence and predicate, `where` returns (without any out-of-bounds
access) exactly the elements of the receiver that satisfy the predicate, each with its
multiplicity, in their original relative order, and nothing else. -/
theorem where_eq_filter {α : Type} [Inhabited α] (self : List α) (condition : α → Bool) :
    where_ self condition = some (self.filter condition) ∧
      (self.filter condition).Sublist self ∧
      ∀ x, x ∈ self.filter condition ↔ x ∈ self ∧ condition x = true :=
  ⟨where_some_filter self condition, List.filter_sublist self, fun _ => List.mem_filter⟩

/-- C2: for every sequence and conversion, `select` returns a sequence of the same length
as the receiver whose element at every index `i` is the conversion of the receiver's
element at `i`. -/
theorem select_length_and_elements {α β : Type} [Inhabited β] (self : List α)
    (selector : α → β) :
    ∃ result, select self selector = some result ∧ result.length = self.length ∧
      ∀ (i : Nat) (h : i < self.length), result[i]? = some (selector (self.get ⟨i, h⟩)) := by
  refine ⟨self.map selector, select_eq_map self selector, by simp, ?_⟩
  intro i h
  simp [List.getElem?_eq_getElem h]

/-- C2 at the receiver `[1, 2, 3]` with the conversion `x + 10`: the result has three
elements and its element at index 1 is `12`. -/
theorem select_length_and_elements_witness :
    ∃ result, select ([1, 2, 3] : List Int) (fun x => x + 10) = some result ∧
      result.length = 3 ∧ result[1]? = some 12 := by
  obtain ⟨result, h, hl, hi⟩ :=
    select_length_and_elements ([1, 2, 3] : List Int) (fun x => x + 10)
  exact ⟨result, h, hl, hi 1 (by decide)⟩

/-! ## `reverse` -/

/-- The body of the loop of `reverse`, for a decremented size `m`. -/
theorem reverse_body_eq {α : Type} (m c : Nat) (data : List α) (a b : α)
    (hc : c < data.length) (hmc : m - c < data.length)
    (ha : data[c]? = some a) (hb : data[m - c]? = some b) :
    ((vec_index data c).bind fun tmp =>
        (vec_index data (m - c)).bind fun other =>
          (vec_assign data c other).bind fun data =>
            vec_assign data (m - c) tmp) = some ((data.set c b).set (m - c) a) := by
  simp [vec_index, vec_assign, ha, hb, hc, hmc]

/-- State of the receiver after the first `c` iterations of the loop of `reverse` on a
receiver of `m + 1` elements: position `i` holds the mirrored element exactly when one,
and only one, of `i` and `m - i` has been visited. -/
theorem reverse_loop_spec {α : Type} (self : List α) (m : Nat) (hlen : self.length = m + 1) :
    ∃ r, forLoop (fun c data =>
        (vec_index data c).bind fun tmp =>
          (vec_index data (m - c)).bind fun other =>
            (vec_assign data c other).bind fun data =>
              vec_assign data (m - c) tmp) m m 0 self = some r ∧
      r.length = m + 1 ∧
      ∀ i, i ≤ m → r[i]? = if (i < m ↔ m - i < m) then self[i]? else self[m - i]? := by
  refine forLoop_invariant _ m
    (fun c data => data.length = m + 1 ∧
      ∀ i, i ≤ m → data[i]? = if (i < c ↔ m - i < c) then self[i]? else self[m - i]?)
    ?_ m 0 self ?_ ?_
  · intro c data hc hinv
    obtain ⟨hl, hpre⟩ := hinv
    have hc1 : c < data.length := by omega
    have hc2 : m - c < data.length := by omega
    have ha : data[c]? = some data[c] := List.getElem?_eq_getElem hc1
    have hb : data[m - c]? = some data[m - c] := List.getElem?_eq_getElem hc2
    refine ⟨_, reverse_body_eq m c data _ _ hc1 hc2 ha hb, by simp [hl], ?_⟩
    intro i hi
    have h1 := hpre c (by omega)
    have h2 := hpre (m - c) (by omega)
    have h3 := hpre i hi
    have hmm : m - (m - c) = c := by omega
    rw [hmm] at h2
    rw [List.getElem?_set, List.getElem?_set, List.length_set]
    by_cases e1 : m - c = i
    · subst e1
      rw [if_pos rfl, if_pos hc2, ← ha, h1, hmm]
      split_ifs <;> first | rfl | omega | (congr 1; omega)
    · rw [if_neg e1]
      by_cases e2 : c = i
      · subst e2
        rw [if_pos rfl, if_pos hc1, ← hb, h2]
        split_ifs <;> first | rfl | omega
      · rw [if_neg e2, h3]
        split_ifs <;> first | rfl | omega
  · omega
  · refine ⟨hlen, ?_⟩
    intro i hi
    simp

/-- On a non-empty receiver whose length fits a `size_t`, `reverse` stays inside the
bounds and exchanges the first and the last element, every other element staying where
it was. -/
theorem reverse_exchanges_ends {α : Type} (self : List α) (hne : self ≠ [])
    (hsize : self.length < SIZE_MAX_SUCC) :
    ∃ r, reverse self = some r ∧ r.length = self.length ∧
      ∀ i, i < self.length → r[i]? =
        if i = 0 then self[self.length - 1]?
        else if i = self.length - 1 then self[0]? else self[i]? := by
  have hpos : 0 < self.length := List.length_pos.mpr hne
  obtain ⟨m, hm⟩ : ∃ m, self.length = m + 1 := ⟨self.length - 1, by omega⟩
  have hwrap : (self.length + SIZE_MAX_SUCC - 1) % SIZE_MAX_SUCC = m := by
    have h1 : self.length + SIZE_MAX_SUCC - 1 = m + SIZE_MAX_SUCC := by omega
    rw [h1, Nat.add_mod_right]
    rw [hm] at hsize
    exact Nat.mod_eq_of_lt (Nat.lt_of_succ_lt hsize)
  clear hsize
  obtain ⟨r, hr, hl, hspec⟩ := reverse_loop_spec self m hm
  refine ⟨r, ?_, by omega, ?_⟩
  · simp only [reverse, hwrap]
    exact hr
  · clear hwrap
    intro i hi
    rw [hspec i (by omega), hm]
    split_ifs <;> first | rfl | omega | (congr 1; omega)

/-- On a non-empty receiver whose length fits a `size_t`, two calls of `reverse` give the
receiver back. -/
theorem reverse_reverse_of_nonempty {α : Type} (self : List α) (hne : self ≠ [])
    (hsize : self.length < SIZE_MAX_SUCC) :
    (reverse self).bind reverse = some self := by
  obtain ⟨r, hr, hl, hspec⟩ := reverse_exchanges_ends self hne hsize
  have hne1 : r ≠ [] := by
    intro h
    rw [h] at hl
    exact hne (List.length_eq_zero.mp hl.symm)
  obtain ⟨r2, hr2, hl2, hspec2⟩ := reverse_exchanges_ends r hne1 (hl ▸ hsize)
  clear hsize
  have hgoal : r2 = self := by
    clear hr hr2
    apply List.ext_getElem?
    intro i
    by_cases hi : i < self.length
    · rw [hspec2 i (by omega), hl]
      have hpos : 0 < self.length := List.length_pos.mpr hne
      have e0 := hspec 0 hpos
      have e1 := hspec (self.length - 1) (by omega)
      have e2 := hspec i hi
      rw [if_pos rfl] at e0
      split_ifs with h1 h2
      · rw [e1]
        split_ifs <;> first | rfl | omega | (congr 1; omega)
      · rw [e0]
        congr 1
        omega
      · rw [e2, if_neg h1, if_neg h2]
    · rw [List.getElem?_eq_none (by omega), List.getElem?_eq_none (by omega)]
  exact Option.bind_eq_some.mpr ⟨r, hr, hr2.trans (congrArg some hgoal)⟩

/-- C3: on the receiver `[1, 2, 3, 4]` the loop of `reverse` swaps the pair `(1, 2)` twice
and leaves `[4, 2, 3, 1]`, which is not the reversed order `[4, 3, 2, 1]`. -/
theorem reverse_of_four_not_reversed :
    reverse ([1, 2, 3, 4] : List Int) = some [4, 2, 3, 1] ∧
      reverse ([1, 2, 3, 4] : List Int) ≠ some ([1, 2, 3, 4] : List Int).reverse := by
  decide

/-- C4: on the empty receiver the decremented `size` wraps to `2 ^ 64 - 1`, the loop is
entered and its first iteration reads `data[0]` outside the bounds, so neither one nor two
calls of `reverse` yield the empty sequence. -/
theorem reverse_of_empty_out_of_bounds :
    reverse ([] : List Int) = none ∧
      (reverse ([] : List Int)).bind reverse ≠ some [] := by
  decide

/-! ## `join` -/

/-- The inner loop of `join` appends, to what was merged so far, the merges of `first`
with the matching elements of `arr`, in the order of `arr`. -/
theorem join_inner_eq {α β γ : Type} (first : α) (merge : α → β → γ) (on_ : α → β → Bool) :
    ∀ (arr : List β) (merged : List γ),
      arr.foldl (fun merged second =>
        if on_ first second then merged ++ [merge first second] else merged) merged
      = merged ++ (arr.filter (fun second => on_ first second)).map
          (fun second => merge first second) := by
  intro arr
  induction arr with
  | nil => intro merged; simp
  | cons b rest ih =>
    intro merged
    rw [List.foldl_cons, ih]
    by_cases hb : on_ first b = true
    · simp [hb]
    · simp [hb]

/-- The outer loop of `join` appends the rows of the receiver's elements in order. -/
theorem join_outer_eq {α β γ : Type} (arr : List β) (merge : α → β → γ)
    (on_ : α → β → Bool) :
    ∀ (self : List α) (merged : List γ),
      self.foldl (fun merged first =>
        arr.foldl (fun merged second =>
          if on_ first second then merged ++ [merge first second] else merged) merged) merged
      = merged ++ self.flatMap (fun first =>
          (arr.filter (fun second => on_ first second)).map
            (fun second => merge first second)) := by
  intro self
  induction self with
  | nil => intro merged; simp
  | cons a rest ih =>
    intro merged
    rw [List.foldl_cons, join_inner_eq, ih]
    simp [List.flatMap_cons]

/-- C5: `join` is the list of the merges `merge a b` of exactly the pairs with `on_ a b`
true, row by row: for each `a` of the receiver in order, the matching `b` of `arr` in
order; on `[1,2,3]` and `[2,3,4]` with sum as merge and equality as match it is `[4,6]`. -/
theorem join_eq_row_major {α β γ : Type} (self : List α) (arr : List β) (merge : α → β → γ)
    (on_ : α → β → Bool) :
    join self arr merge on_ =
        self.flatMap (fun a => (arr.filter (fun b => on_ a b)).map (fun b => merge a b)) ∧
      join ([1, 2, 3] : List Int) ([2, 3, 4] : List Int) (fun a b => a + b)
        (fun a b => decide (a = b)) = [4, 6] := by
  refine ⟨?_, by decide⟩
  have h := join_outer_eq arr merge on_ self []
  simpa [join] using h

end linq_vec

/-! ## `orderby` -/

/-- Inserting an element adds it, and nothing else, to the list. -/
theorem sort_insert_perm {α : Type} (pred : α → α → Bool) (x : α) :
    ∀ l : List α, (sort_insert pred x l).Perm (x :: l) := by
  intro l
  induction l with
  | nil => exact List.Perm.refl _
  | cons y ys ih =>
    by_cases h : pred x y = true
    · simp [sort_insert, h]
    · simp only [sort_insert, h, if_false, Bool.false_eq_true]
      exact (List.Perm.cons y ih).trans (List.Perm.swap x y ys)

/-- The sort rearranges the receiver: it is a permutation of its input. -/
theorem std_sort_perm {α : Type} (pred : α → α → Bool) :
    ∀ l : List α, (std_sort pred l).Perm l := by
  intro l
  induction l with
  | nil => exact List.Perm.refl _
  | cons x xs ih =>
    exact (sort_insert_perm pred x (std_sort pred xs)).trans (List.Perm.cons x ih)

/-- Inserting into a sorted list keeps it sorted, for a transitive relation `r` that
holds whenever `pred` does and holds the other way round whenever `pred` does not. -/
theorem sort_insert_sorted {α : Type} (pred : α → α → Bool) (r : α → α → Prop)
    (htrans : ∀ a b c, r a b → r b c → r a c)
    (hyes : ∀ a b, pred a b = true → r a b)
    (hno : ∀ a b, pred a b = false → r b a) (x : α) :
    ∀ l : List α, l.Pairwise r → (sort_insert pred x l).Pairwise r := by
  intro l
  induction l with
  | nil => intro _; simp [sort_insert]
  | cons y ys ih =>
    intro hs
    obtain ⟨hy, hys⟩ := List.pairwise_cons.mp hs
    by_cases h : pred x y = true
    · simp only [sort_insert, h, if_true]
      refine List.pairwise_cons.mpr ⟨?_, hs⟩
      intro z hz
      rcases List.mem_cons.mp hz with hz | hz
      · subst hz
        exact hyes x z h
      · exact htrans x y z (hyes x y h) (hy z hz)
    · have hf : pred x y = false := by simpa using h
      simp only [sort_insert, hf, if_false, Bool.false_eq_true]
      refine List.pairwise_cons.mpr ⟨?_, ih hys⟩
      intro z hz
      have hz1 : z ∈ x :: ys := (sort_insert_perm pred x ys).mem_iff.mp hz
      rcases List.mem_cons.mp hz1 with hz2 | hz2
      · subst hz2
        exact hno z y hf
      · exact hy z hz2

/-- The sort leaves its input sorted for such a relation. -/
theorem std_sort_sorted {α : Type} (pred : α → α → Bool) (r : α → α → Prop)
    (htrans : ∀ a b c, r a b → r b c → r a c)
    (hyes : ∀ a b, pred a b = true → r a b)
    (hno : ∀ a b, pred a b = false → r b a) :
    ∀ l : List α, (std_sort pred l).Pairwise r := by
  intro l
  induction l with
  | nil => simp [std_sort]
  | cons x xs ih => exact sort_insert_sorted pred r htrans hyes hno x _ ih

/-- Sorting integers with `ascending()` gives a non-decreasing list. -/
theorem std_sort_ascending_sorted (l : List Int) :
    (std_sort ascending l).Pairwise (fun a b => a ≤ b) :=
  std_sort_sorted ascending (fun a b => a ≤ b)
    (fun _ _ _ h1 h2 => le_trans h1 h2)
    (fun a b h => by
      have : a < b := by simpa [ascending, core.less] using h
      exact le_of_lt this)
    (fun a b h => by
      have : ¬ a < b := by simpa [ascending, core.less] using h
      exact not_lt.mp this) l

/-- Sorting integers with `descending()` gives a non-increasing list. -/
theorem std_sort_descending_sorted (l : List Int) :
    (std_sort descending l).Pairwise (fun a b => b ≤ a) :=
  std_sort_sorted descending (fun a b => b ≤ a)
    (fun _ _ _ h1 h2 => le_trans h2 h1)
    (fun a b h => by
      have : b < a := by simpa [descending, core.more] using h
      exact le_of_lt this)
    (fun a b h => by
      have : ¬ b < a := by simpa [descending, core.more] using h
      exact not_lt.mp this) l

/-- Two non-decreasing lists of integers with the same elements are equal. -/
theorem eq_of_perm_of_nondecreasing (l₁ l₂ : List Int) (hp : l₁.Perm l₂)
    (h1 : l₁.Pairwise (fun a b => a ≤ b)) (h2 : l₂.Pairwise (fun a b => a ≤ b)) : l₁ = l₂ :=
  List.eq_of_perm_of_sorted hp h1 h2

/-- Two non-increasing lists of integers with the same elements are equal. -/
theorem eq_of_perm_of_nonincreasing (l₁ l₂ : List Int) (hp : l₁.Perm l₂)
    (h1 : l₁.Pairwise (fun a b => b ≤ a)) (h2 : l₂.Pairwise (fun a b => b ≤ a)) : l₁ = l₂ := by
  have hr := eq_of_perm_of_nondecreasing l₁.reverse l₂.reverse
    ((List.reverse_perm l₁).trans (hp.trans (List.reverse_perm l₂).symm))
    (List.pairwise_reverse.mpr h1) (List.pairwise_reverse.mpr h2)
  simpa using hr

namespace linq_vec

/-- C6: for every sequence of integers, after `orderby(ascending())` the receiver is a
permutation of its original contents in non-decreasing order; that list is the only such
arrangement, so it does not depend on the sorting algorithm; `{5,3,8,1}` becomes
`[1,3,5,8]`. -/
theorem orderby_ascending_sorted_perm (self : List Int) :
    (orderby self ascending).Perm self ∧
      (orderby self ascending).Pairwise (fun a b => a ≤ b) ∧
      (∀ other : List Int, other.Perm self → other.Pairwise (fun a b => a ≤ b) →
        other = orderby self ascending) ∧
      orderby ([5, 3, 8, 1] : List Int) ascending = [1, 3, 5, 8] := by
  refine ⟨std_sort_perm _ _, std_sort_ascending_sorted _, ?_, by decide⟩
  intro other hp hs
  exact eq_of_perm_of_nondecreasing _ _ (hp.trans (std_sort_perm _ _).symm) hs
    (std_sort_ascending_sorted _)

/-- C7: for every sequence of integers, `orderby(descending())` leaves a permutation of
the original contents in non-increasing order, the only such arrangement; it is the
reversed list of the result of `orderby(ascending())`, also when it is applied to the
receiver already sorted ascending; `[1,3,5,8]` becomes `[8,5,3,1]`. -/
theorem orderby_descending_sorted_perm (self : List Int) :
    (orderby self descending).Perm self ∧
      (orderby self descending).Pairwise (fun a b => b ≤ a) ∧
      (∀ other : List Int, other.Perm self → other.Pairwise (fun a b => b ≤ a) →
        other = orderby self descending) ∧
      orderby self descending = (orderby self ascending).reverse ∧
      orderby (orderby self ascending) descending = (orderby self ascending).reverse ∧
      orderby ([1, 3, 5, 8] : List Int) descending = [8, 5, 3, 1] := by
  have huniq : ∀ (base other : List Int), other.Perm base →
      other.Pairwise (fun a b => b ≤ a) → other = orderby base descending := by
    intro base other hp hs
    exact eq_of_perm_of_nonincreasing _ _ (hp.trans (std_sort_perm _ _).symm) hs
      (std_sort_descending_sorted _)
  have hasc : (orderby self ascending).reverse.Pairwise (fun a b => b ≤ a) :=
    List.pairwise_reverse.mpr (std_sort_ascending_sorted self)
  refine ⟨std_sort_perm _ _, std_sort_descending_sorted _, huniq self, ?_, ?_, by decide⟩
  · exact (huniq self _ ((List.reverse_perm _).trans (std_sort_perm _ _)) hasc).symm
  · exact (huniq _ _ (List.reverse_perm _) hasc).symm

/-! ## `first` and `last` -/

/-- C8: `first()` fails, with the `logic_error` "array is empty", exactly when the
receiver has no element; on every non-empty receiver it returns the element at index 0. -/
theorem first_empty_iff_and_head {α : Type} (self : List α) :
    (first self = Except.error (Exception.logic_error "array is empty") ↔ self.length = 0) ∧
      ((∃ e, first self = Except.error e) ↔ self.length = 0) ∧
      (∀ h : 0 < self.length, first self = Except.ok (self.get ⟨0, h⟩)) := by
  cases self with
  | nil => simp [first, EmptyCollectionError]
  | cons x rest => simp [first]

/-- C8 at the non-empty receiver `[7, 8]`: `first()` returns `7`. -/
theorem first_empty_iff_and_head_witness :
    0 < ([7, 8] : List Int).length ∧ first ([7, 8] : List Int) = Except.ok 7 :=
  ⟨by decide, (first_empty_iff_and_head ([7, 8] : List Int)).2.2 (by decide)⟩

/-- C9: on the empty receiver `last()` computes `pos = 2 ^ 64 - 1`, passes the test
`pos >= 0` and fails inside `at(pos)` with `std::out_of_range`: it is not the
`logic_error` "array is empty" that `first()` raises there. -/
theorem last_of_empty_out_of_range :
    last ([] : List Int) = Except.error (Exception.out_of_range (2 ^ 64 - 1) 0) ∧
      first ([] : List Int) = Except.error (Exception.logic_error "array is empty") ∧
      last ([] : List Int) ≠ first ([] : List Int) := by
  decide

/-- The search of `first(condition)` fails exactly when no element matches. -/
theorem first_condition_error_iff {α : Type} (condition : α → Bool) (self : List α) :
    first_condition condition self = Except.error NotFoundError ↔
      ∀ x ∈ self, condition x = false := by
  induction self with
  | nil => simp [first_condition]
  | cons x rest ih =>
    by_cases h : condition x = true
    · simp [first_condition, h]
    · simp [first_condition, h, ih]

/-- The search of `first(condition)` returns the match of smallest index. -/
theorem first_condition_least {α : Type} (condition : α → Bool) (self : List α)
    (hex : ∃ x ∈ self, condition x = true) :
    ∃ (i : Nat) (h : i < self.length), condition (self.get ⟨i, h⟩) = true ∧
      (∀ (j : Nat) (hj : j < i), condition (self.get ⟨j, Nat.lt_trans hj h⟩) = false) ∧
      first_condition condition self = Except.ok (self.get ⟨i, h⟩) := by
  induction self with
  | nil => simp at hex
  | cons x rest ih =>
    by_cases h : condition x = true
    · refine ⟨0, by simp, by simpa using h, ?_, by simp [first_condition, h]⟩
      intro j hj
      omega
    · have hex1 : ∃ y ∈ rest, condition y = true := by
        obtain ⟨y, hy, hc⟩ := hex
        rcases List.mem_cons.mp hy with e | e
        · subst e
          exact absurd hc h
        · exact ⟨y, e, hc⟩
      obtain ⟨i, hi, hc, hmin, hres⟩ := ih hex1
      refine ⟨i + 1, by simpa using hi, by simpa using hc, ?_, ?_⟩
      · intro j hj
        cases j with
        | zero => simpa using h
        | succ k => simpa using hmin k (by omega)
      · simpa [first_condition, h] using hres

/-- C10: `first(condition)` fails, with the `logic_error` "no elements match the given
conditional", exactly when no element of the receiver satisfies the condition; otherwise
it returns the element at the smallest index whose element satisfies it. -/
theorem first_condition_spec {α : Type} (condition : α → Bool) (self : List α) :
    (first_condition condition self =
        Except.error (Exception.logic_error "no elements match the given conditional") ↔
      ∀ x ∈ self, condition x = false) ∧
    ((∃ e, first_condition condition self = Except.error e) ↔
      ∀ x ∈ self, condition x = false) ∧
    ((∃ x ∈ self, condition x = true) →
      ∃ (i : Nat) (h : i < self.length), condition (self.get ⟨i, h⟩) = true ∧
        (∀ (j : Nat) (hj : j < i), condition (self.get ⟨j, Nat.lt_trans hj h⟩) = false) ∧
        first_condition condition self = Except.ok (self.get ⟨i, h⟩)) := by
  refine ⟨first_condition_error_iff condition self, ?_, first_condition_least condition self⟩
  constructor
  · rintro ⟨e, he⟩
    by_contra hne
    have hex : ∃ x ∈ self, condition x = true := by
      by_contra hno
      apply hne
      intro x hx
      by_contra hc
      exact hno ⟨x, hx, by simpa using hc⟩
    obtain ⟨i, hi, _, _, hres⟩ := first_condition_least condition self hex
    rw [hres] at he
    cases he
  · intro h
    exact ⟨NotFoundError, (first_condition_error_iff condition self).mpr h⟩

/-- C10 at the receiver `[1, 4, 6]` with the condition "is even": an element matches, and
the search returns the one of smallest index. -/
theorem first_condition_spec_witness :
    (∃ x ∈ ([1, 4, 6] : List Int), decide (x % 2 = 0) = true) ∧
      ∃ (i : Nat) (h : i < ([1, 4, 6] : List Int).length),
        decide (([1, 4, 6] : List Int).get ⟨i, h⟩ % 2 = 0) = true ∧
        (∀ (j : Nat) (hj : j < i),
          decide (([1, 4, 6] : List Int).get ⟨j, Nat.lt_trans hj h⟩ % 2 = 0) = false) ∧
        first_condition (fun x : Int => decide (x % 2 = 0)) [1, 4, 6] =
          Except.ok (([1, 4, 6] : List Int).get ⟨i, h⟩) :=
  ⟨⟨4, by decide, by decide⟩,
    (first_condition_spec (fun x : Int => decide (x % 2 = 0)) [1, 4, 6]).2.2
      ⟨4, by decide, by decide⟩⟩

/-! ## `first_or_default`, `last(condition)`, `last_or_default` -/

/-- C11: `first_or_default` always returns a value: exactly the default when no element of
the receiver satisfies the condition, in particular on the empty receiver, and otherwise
the element `first(condition)` returns. -/
theorem first_or_default_spec {α : Type} (defaultValue : α) (condition : α → Bool)
    (self : List α) :
    ((∀ x ∈ self, condition x = false) →
        first_or_default defaultValue condition self = defaultValue) ∧
      first_or_default defaultValue condition ([] : List α) = defaultValue ∧
      ((∃ x ∈ self, condition x = true) →
        first_condition condition self =
          Except.ok (first_or_default defaultValue condition self)) := by
  refine ⟨?_, rfl, ?_⟩
  · intro h
    simp [first_or_default, (first_condition_error_iff condition self).mpr h]
  · intro h
    obtain ⟨i, hi, _, _, hres⟩ := first_condition_least condition self h
    simp [first_or_default, hres]

/-- C11 at the receivers `[1, 3]` (no even element, the default `0` comes back) and
`[1, 4, 6]` (the first even element `4` comes back, as from `first(condition)`). -/
theorem first_or_default_spec_witness :
    first_or_default (0 : Int) (fun x => decide (x % 2 = 0)) [1, 3] = 0 ∧
      first_condition (fun x : Int => decide (x % 2 = 0)) [1, 4, 6] =
        Except.ok (first_or_default (0 : Int) (fun x => decide (x % 2 = 0)) [1, 4, 6]) :=
  ⟨(first_or_default_spec (0 : Int) (fun x => decide (x % 2 = 0)) [1, 3]).1 (by decide),
    (first_or_default_spec (0 : Int) (fun x => decide (x % 2 = 0)) [1, 4, 6]).2.2
      ⟨4, by decide, by decide⟩⟩

/-- The reverse iterator loop fails exactly when no visited element matches. -/
theorem last_condition_loop_error_iff {α : Type} (condition : α → Bool) (items : List α) :
    last_condition_loop condition items = Except.error NotFoundError ↔
      ∀ x ∈ items, condition x = false := by
  induction items with
  | nil => simp [last_condition_loop]
  | cons x rest ih =>
    by_cases h : condition x = true
    · simp [last_condition_loop, h]
    · simp [last_condition_loop, h, ih]

/-- The reverse iterator loop returns the first match among the visited elements. -/
theorem last_condition_loop_least {α : Type} (condition : α → Bool) (items : List α)
    (hex : ∃ x ∈ items, condition x = true) :
    ∃ (i : Nat) (h : i < items.length), condition (items.get ⟨i, h⟩) = true ∧
      (∀ (j : Nat) (hj : j < i), condition (items.get ⟨j, Nat.lt_trans hj h⟩) = false) ∧
      last_condition_loop condition items = Except.ok (items.get ⟨i, h⟩) := by
  induction items with
  | nil => simp at hex
  | cons x rest ih =>
    by_cases h : condition x = true
    · refine ⟨0, by simp, by simpa using h, ?_, by simp [last_condition_loop, h]⟩
      intro j hj
      omega
    · have hex1 : ∃ y ∈ rest, condition y = true := by
        obtain ⟨y, hy, hc⟩ := hex
        rcases List.mem_cons.mp hy with e | e
        · subst e
          exact absurd hc h
        · exact ⟨y, e, hc⟩
      obtain ⟨i, hi, hc, hmin, hres⟩ := ih hex1
      refine ⟨i + 1, by simpa using hi, by simpa using hc, ?_, ?_⟩
      · intro j hj
        cases j with
        | zero => simpa using h
        | succ k => simpa using hmin k (by omega)
      · simpa [last_condition_loop, h] using hres

/-- The search of `last(condition)` fails exactly when no element matches. -/
theorem last_condition_error_iff {α : Type} (condition : α → Bool) (self : List α) :
    last_condition condition self = Except.error NotFoundError ↔
      ∀ x ∈ self, condition x = false := by
  simp [last_condition, last_condition_loop_error_iff]

/-- The search of `last(condition)` returns the match of greatest index. -/
theorem last_condition_greatest {α : Type} (condition : α → Bool) (self : List α)
    (hex : ∃ x ∈ self, condition x = true) :
    ∃ (i : Nat) (h : i < self.length), condition (self.get ⟨i, h⟩) = true ∧
      (∀ (j : Nat) (hj : j < self.length), i < j → condition (self.get ⟨j, hj⟩) = false) ∧
      last_condition condition self = Except.ok (self.get ⟨i, h⟩) := by
  have hex1 : ∃ x ∈ self.reverse, condition x = true := by
    obtain ⟨x, hx, hc⟩ := hex
    exact ⟨x, List.mem_reverse.mpr hx, hc⟩
  obtain ⟨i, hi, hc, hmin, hres⟩ := last_condition_loop_least condition self.reverse hex1
  have hi1 : i < self.length := by simpa using hi
  have hidx : ∀ (j : Nat) (hj : j < self.reverse.length),
      self.reverse.get ⟨j, hj⟩ =
        self.get ⟨self.length - 1 - j, by have := List.length_reverse self; omega⟩ := by
    intro j hj
    simp [List.getElem_reverse]
  refine ⟨self.length - 1 - i, by omega, ?_, ?_, ?_⟩
  · rw [← hidx i hi]
    exact hc
  · intro j hj hij
    have hj1 : self.length - 1 - j < self.reverse.length := by
      rw [List.length_reverse]; omega
    have h := hmin (self.length - 1 - j) (by omega)
    rw [hidx _ hj1] at h
    have e : self.length - 1 - (self.length - 1 - j) = j := by omega
    simpa [e] using h
  · rw [← hidx i hi]
    exact hres

/-- C12: `last(condition)` returns the element at the greatest index whose element
satisfies the condition and fails, with the `logic_error` "no elements match the given
conditional", exactly when no element does; `last_or_default` returns that same element
when there is one and exactly the default otherwise, and always returns a value. -/
theorem last_condition_spec {α : Type} (defaultValue : α) (condition : α → Bool)
    (self : List α) :
    (last_condition condition self =
        Except.error (Exception.logic_error "no elements match the given conditional") ↔
      ∀ x ∈ self, condition x = false) ∧
    ((∃ e, last_condition condition self = Except.error e) ↔
      ∀ x ∈ self, condition x = false) ∧
    ((∃ x ∈ self, condition x = true) →
      ∃ (i : Nat) (h : i < self.length), condition (self.get ⟨i, h⟩) = true ∧
        (∀ (j : Nat) (hj : j < self.length), i < j → condition (self.get ⟨j, hj⟩) = false) ∧
        last_condition condition self = Except.ok (self.get ⟨i, h⟩) ∧
        last_or_default defaultValue condition self = self.get ⟨i, h⟩) ∧
    ((∀ x ∈ self, condition x = false) →
      last_or_default defaultValue condition self = defaultValue) := by
  have hnone : (∀ x ∈ self, condition x = false) ∨ ∃ x ∈ self, condition x = true := by
    by_cases h : ∃ x ∈ self, condition x = true
    · exact Or.inr h
    · refine Or.inl fun x hx => ?_
      by_contra hc
      exact h ⟨x, hx, by simpa using hc⟩
  refine ⟨last_condition_error_iff condition self, ?_, ?_, ?_⟩
  · constructor
    · rintro ⟨e, he⟩
      rcases hnone with h | h
      · exact h
      · obtain ⟨i, hi, _, _, hres⟩ := last_condition_greatest condition self h
        rw [hres] at he
        cases he
    · intro h
      exact ⟨NotFoundError, (last_condition_error_iff condition self).mpr h⟩
  · intro h
    obtain ⟨i, hi, hc, hmax, hres⟩ := last_condition_greatest condition self h
    exact ⟨i, hi, hc, hmax, hres, by simp [last_or_default, hres]⟩
  · intro h
    simp [last_or_default, (last_condition_error_iff condition self).mpr h]

/-- C12 at the receivers `[1, 4, 6, 7]` (the last even element is `6`, at index 2) and
`[1, 3]` (no even element, the default `0` comes back). -/
theorem last_condition_spec_witness :
    (∃ (i : Nat) (h : i < ([1, 4, 6, 7] : List Int).length),
        decide (([1, 4, 6, 7] : List Int).get ⟨i, h⟩ % 2 = 0) = true ∧
        (∀ (j : Nat) (hj : j < ([1, 4, 6, 7] : List Int).length), i < j →
          decide (([1, 4, 6, 7] : List Int).get ⟨j, hj⟩ % 2 = 0) = false) ∧
        last_condition (fun x : Int => decide (x % 2 = 0)) [1, 4, 6, 7] =
          Except.ok (([1, 4, 6, 7] : List Int).get ⟨i, h⟩) ∧
        last_or_default (0 : Int) (fun x => decide (x % 2 = 0)) [1, 4, 6, 7] =
          ([1, 4, 6, 7] : List Int).get ⟨i, h⟩) ∧
      last_or_default (0 : Int) (fun x => decide (x % 2 = 0)) [1, 3] = 0 :=
  ⟨(last_condition_spec (0 : Int) (fun x => decide (x % 2 = 0)) [1, 4, 6, 7]).2.2.1
      ⟨4, by decide, by decide⟩,
    (last_condition_spec (0 : Int) (fun x => decide (x % 2 = 0)) [1, 3]).2.2.2 (by decide)⟩

/-! ## `any` and `sum` -/

/-- The loop of `any(condition)` answers whether some element matches. -/
theorem any_condition_eq_true_iff {α : Type} (condition : α → Bool) (self : List α) :
    any_condition condition self = true ↔ ∃ x ∈ self, condition x = true := by
  induction self with
  | nil => simp [any_condition]
  | cons x rest ih =>
    by_cases h : condition x = true
    · simp [any_condition, h]
    · simp [any_condition, h, ih]

/-- C13: `any(condition)` is true exactly when at least one element of the receiver
satisfies the condition, so it is false on the empty receiver, and `any()` is true exactly
when the receiver is non-empty. -/
theorem any_spec {α : Type} (condition : α → Bool) (self : List α) :
    (any_condition condition self = true ↔ ∃ x ∈ self, condition x = true) ∧
      any_condition condition ([] : List α) = false ∧
      (any self = true ↔ self ≠ []) := by
  refine ⟨any_condition_eq_true_iff condition self, rfl, ?_⟩
  cases self with
  | nil => simp [any]
  | cons x rest => simp [any]

/-- A value in the range of the type is left unchanged by the reduction. -/
theorem machine_int.wrap_val_of_in_range (signed : Bool) (bits : Nat) (z : Int)
    (h : machine_int.in_range signed bits z) : machine_int.wrap_val signed bits z = z := by
  obtain ⟨h1, h2⟩ := h
  unfold machine_int.wrap_val
  rw [Int.emod_eq_of_lt (by omega) (by omega)]
  omega

/-- The zeroed object has the value `0` in every type of at least one bit. -/
theorem machine_int.zero_val (signed : Bool) (bits : Nat) (hbits : 0 < bits) :
    (0 : machine_int signed bits).val = 0 := by
  show machine_int.wrap_val signed bits 0 = 0
  apply machine_int.wrap_val_of_in_range
  have hpos : (0 : Int) < 2 ^ (bits - 1) := pow_pos (by decide) _
  have hpow : (2 : Int) ^ bits = 2 * 2 ^ (bits - 1) := by
    obtain ⟨k, hk⟩ : ∃ k, bits = k + 1 := ⟨bits - 1, by omega⟩
    subst hk
    simp [pow_succ, mul_comm]
  cases signed
  · simp only [machine_int.in_range, machine_int.lo, Bool.false_eq_true, if_false]
    omega
  · simp only [machine_int.in_range, machine_int.lo, if_true]
    omega

/-- The value of a machine sum is the reduced sum of the values. -/
theorem machine_int.add_val (signed : Bool) (bits : Nat) (a b : machine_int signed bits) :
    (a + b).val = machine_int.wrap_val signed bits (a.val + b.val) := rfl

/-- The accumulation loop of `sum` adds the selected values to its seed exactly, as long
as no intermediate result leaves the range of the accumulator. -/
theorem sum_foldl_exact {α : Type} (signed : Bool) (bits : Nat)
    (value_selector : α → machine_int signed bits) :
    ∀ (self : List α) (seed : machine_int signed bits),
      (∀ n, n ≤ self.length → machine_int.in_range signed bits
        (seed.val + ((self.take n).map (fun x => (value_selector x).val)).sum)) →
      (self.foldl (fun result x => result + value_selector x) seed).val =
        seed.val + (self.map (fun x => (value_selector x).val)).sum := by
  intro self
  induction self with
  | nil => intro seed _; simp
  | cons x rest ih =>
    intro seed hexact
    have h1 := hexact 1 (by simp)
    simp only [List.take_succ_cons, List.take_zero, List.map_cons, List.map_nil,
      List.sum_cons, List.sum_nil, add_zero] at h1
    have hstep : (seed + value_selector x).val = seed.val + (value_selector x).val := by
      rw [machine_int.add_val, machine_int.wrap_val_of_in_range _ _ _ h1]
    rw [List.foldl_cons, ih (seed + value_selector x), hstep, List.map_cons, List.sum_cons,
      add_assoc]
    intro n hn
    have h2 := hexact (n + 1) (by simpa using hn)
    rw [hstep]
    simpa [List.take_succ_cons, add_assoc] using h2

/-- The accumulator of `sum` is reduced to its width when a result leaves the range: on
`{INT_MAX, 1}` a 32-bit signed sum is `INT_MIN` and on `{UINT_MAX, 1}` a 32-bit unsigned
sum is `0`. -/
theorem sum_wraps_on_overflow :
    (sum ([2147483647, 1] : List Int) (machine_int.wrap true 32)).val = -2147483648 ∧
      (sum ([4294967295, 1] : List Int) (machine_int.wrap false 32)).val = 0 := by
  decide

/-- C14: for a selector into a fixed-width integer type (signed or unsigned, of at least
one bit), if the arithmetic is exact, that is if no partial sum of the selected values
leaves the range of the type, `sum` is the sum of the selected values of all the elements
of the receiver, accumulated from the zero seed; on the empty receiver it returns `0`. -/
theorem sum_eq_sum_map {α : Type} (signed : Bool) (bits : Nat) (hbits : 0 < bits)
    (self : List α) (value_selector : α → machine_int signed bits)
    (hexact : ∀ n, n ≤ self.length → machine_int.in_range signed bits
      (((self.take n).map (fun x => (value_selector x).val)).sum)) :
    (sum self value_selector).val = (self.map (fun x => (value_selector x).val)).sum ∧
      (sum ([] : List α) value_selector).val = 0 := by
  refine ⟨?_, machine_int.zero_val signed bits hbits⟩
  have h := sum_foldl_exact signed bits value_selector self 0
    (by
      intro n hn
      rw [machine_int.zero_val signed bits hbits, zero_add]
      exact hexact n hn)
  rw [machine_int.zero_val signed bits hbits, zero_add] at h
  exact h

/-- C14 at the receiver `[1, 2, 3]` with a 32-bit signed selector that doubles each
element: every partial sum (`0, 2, 6, 12`) is in range and `sum` returns `12`. -/
theorem sum_eq_sum_map_witness :
    (∀ n, n ≤ ([1, 2, 3] : List Int).length → machine_int.in_range true 32
        (((([1, 2, 3] : List Int).take n).map
          (fun x => (machine_int.wrap true 32 (x * 2)).val)).sum)) ∧
      (sum ([1, 2, 3] : List Int) (fun x => machine_int.wrap true 32 (x * 2))).val = 12 :=
  ⟨by decide,
    (sum_eq_sum_map true 32 (by decide) ([1, 2, 3] : List Int)
      (fun x => machine_int.wrap true 32 (x * 2)) (by decide)).1.trans (by decide)⟩

/-- C19: the result of `where(condition)` never holds an element that fails the condition:
`any` with the negated condition is false on it. -/
theorem where_any_not_false {α : Type} [Inhabited α] (self : List α) (condition : α → Bool) :
    ∃ result, where_ self condition = some result ∧
      any_condition (fun x => !condition x) result = false := by
  refine ⟨self.filter condition, where_some_filter self condition, ?_⟩
  rw [← Bool.not_eq_true, any_condition_eq_true_iff]
  rintro ⟨x, hx, hc⟩
  have := (List.mem_filter.mp hx).2
  simp [this] at hc

/-! ## `min`, `max` and `comp_select` -/

/-- The loop of `comp_select` never leaves the bounds: from index `c` on it folds the
remaining elements into `result`, replacing it whenever `pred` prefers the new value, and
calls the selector once on each of them. -/
theorem comp_select_loop_eq {α β : Type} (self : List α) (value_selector : α → β)
    (pred : β → β → Bool) :
    ∀ (fuel c : Nat) (result : β) (calls : List α), c + fuel = self.length →
      comp_select_loop self value_selector pred self.length fuel c (result, calls) =
        Except.ok ((self.drop c).foldl
          (fun r x => if pred (value_selector x) r then value_selector x else r) result,
          calls ++ self.drop c) := by
  intro fuel
  induction fuel with
  | zero =>
    intro c result calls hc
    have hd : self.drop c = [] := List.drop_eq_nil_of_le (by omega)
    simp [comp_select_loop, hd]
  | succ k ih =>
    intro c result calls hc
    have hlt : c < self.length := by omega
    have hd : self.drop c = self[c] :: self.drop (c + 1) := List.drop_eq_getElem_cons hlt
    have hat : vec_at self c = Except.ok self[c] := by
      simp [vec_at, List.getElem?_eq_getElem hlt]
    simp only [comp_select_loop, hlt, if_true, hat]
    rw [ih (c + 1) _ _ (by omega), hd]
    simp only [List.foldl_cons, List.append_assoc, List.singleton_append]

/-- On a non-empty receiver `comp_select` starts from the selected value of the first
element and folds the others into it; the selector is called once per element. -/
theorem comp_select_calls_cons {α β : Type} [Zero β] (x : α) (rest : List α)
    (value_selector : α → β) (pred : β → β → Bool) :
    comp_select_calls (x :: rest) value_selector pred =
      Except.ok (rest.foldl
        (fun r y => if pred (value_selector y) r then value_selector y else r)
        (value_selector x), x :: rest) := by
  have h := comp_select_loop_eq (x :: rest) value_selector pred rest.length 1
    (value_selector x) [x] (by simp; omega)
  simp only [comp_select_calls, List.length_cons, Nat.succ_pos, if_true, vec_at,
    List.getElem?_cons_zero, Nat.add_sub_cancel, gt_iff_lt] at h ⊢
  rw [h]
  simp

/-- Folding with a strict "less than" test keeps the least value met. -/
theorem fold_ascending_least {α : Type} (value_selector : α → Int) :
    ∀ (l : List α) (seed : Int),
      (l.foldl (fun r y => if ascending (value_selector y) r then value_selector y else r) seed
          = seed ∨
        ∃ x ∈ l, value_selector x =
          l.foldl (fun r y => if ascending (value_selector y) r then value_selector y else r)
            seed) ∧
      l.foldl (fun r y => if ascending (value_selector y) r then value_selector y else r) seed
        ≤ seed ∧
      ∀ y ∈ l,
        l.foldl (fun r y => if ascending (value_selector y) r then value_selector y else r)
          seed ≤ value_selector y := by
  intro l
  induction l with
  | nil => intro seed; simp
  | cons a rest ih =>
    intro seed
    rw [List.foldl_cons]
    by_cases h : value_selector a < seed
    · have hs : ascending (value_selector a) seed = true := by simp [ascending, core.less, h]
      rw [hs, if_pos rfl]
      obtain ⟨h1, h2, h3⟩ := ih (value_selector a)
      refine ⟨Or.inr ?_, by omega, ?_⟩
      · rcases h1 with e | ⟨x, hx, e⟩
        · exact ⟨a, List.mem_cons_self _ _, e.symm⟩
        · exact ⟨x, List.mem_cons_of_mem _ hx, e⟩
      · intro y hy
        rcases List.mem_cons.mp hy with e | e
        · subst e; exact h2
        · exact h3 y e
    · have hs : ascending (value_selector a) seed = false := by
        simp [ascending, core.less, h]
      rw [hs]
      simp only [Bool.false_eq_true, if_false]
      obtain ⟨h1, h2, h3⟩ := ih seed
      refine ⟨?_, h2, ?_⟩
      · rcases h1 with e | ⟨x, hx, e⟩
        · exact Or.inl e
        · exact Or.inr ⟨x, List.mem_cons_of_mem _ hx, e⟩
      · intro y hy
        rcases List.mem_cons.mp hy with e | e
        · subst e; omega
        · exact h3 y e

/-- Folding with a strict "greater than" test keeps the greatest value met. -/
theorem fold_descending_greatest {α : Type} (value_selector : α → Int) :
    ∀ (l : List α) (seed : Int),
      (l.foldl (fun r y => if descending (value_selector y) r then value_selector y else r) seed
          = seed ∨
        ∃ x ∈ l, value_selector x =
          l.foldl (fun r y => if descending (value_selector y) r then value_selector y else r)
            seed) ∧
      seed ≤
        l.foldl (fun r y => if descending (value_selector y) r then value_selector y else r)
          seed ∧
      ∀ y ∈ l, value_selector y ≤
        l.foldl (fun r y => if descending (value_selector y) r then value_selector y else r)
          seed := by
  intro l
  induction l with
  | nil => intro seed; simp
  | cons a rest ih =>
    intro seed
    rw [List.foldl_cons]
    by_cases h : value_selector a > seed
    · have hs : descending (value_selector a) seed = true := by
        simp [descending, core.more, h]
      rw [hs, if_pos rfl]
      obtain ⟨h1, h2, h3⟩ := ih (value_selector a)
      refine ⟨Or.inr ?_, by omega, ?_⟩
      · rcases h1 with e | ⟨x, hx, e⟩
        · exact ⟨a, List.mem_cons_self _ _, e.symm⟩
        · exact ⟨x, List.mem_cons_of_mem _ hx, e⟩
      · intro y hy
        rcases List.mem_cons.mp hy with e | e
        · subst e; exact h2
        · exact h3 y e
    · have hs : descending (value_selector a) seed = false := by
        simp [descending, core.more, h]
      rw [hs]
      simp only [Bool.false_eq_true, if_false]
      obtain ⟨h1, h2, h3⟩ := ih seed
      refine ⟨?_, h2, ?_⟩
      · rcases h1 with e | ⟨x, hx, e⟩
        · exact Or.inl e
        · exact Or.inr ⟨x, List.mem_cons_of_mem _ hx, e⟩
      · intro y hy
        rcases List.mem_cons.mp hy with e | e
        · subst e; omega
        · exact h3 y e

/-- On a non-empty receiver `min(value_selector)` is the least selected value. -/
theorem min_select_least {α : Type} (self : List α) (value_selector : α → Int)
    (hne : self ≠ []) :
    ∃ m, min_select self value_selector = Except.ok m ∧
      (∃ x ∈ self, value_selector x = m) ∧ ∀ y ∈ self, m ≤ value_selector y := by
  cases self with
  | nil => exact absurd rfl hne
  | cons a rest =>
    obtain ⟨h1, h2, h3⟩ := fold_ascending_least value_selector rest (value_selector a)
    refine ⟨_, by rw [min_select, comp_select, comp_select_calls_cons], ?_, ?_⟩
    · rcases h1 with e | ⟨x, hx, e⟩
      · exact ⟨a, List.mem_cons_self _ _, e.symm⟩
      · exact ⟨x, List.mem_cons_of_mem _ hx, e⟩
    · intro y hy
      rcases List.mem_cons.mp hy with e | e
      · subst e; exact h2
      · exact h3 y e

/-- On a non-empty receiver `max(value_selector)` is the greatest selected value. -/
theorem max_select_greatest {α : Type} (self : List α) (value_selector : α → Int)
    (hne : self ≠ []) :
    ∃ m, max_select self value_selector = Except.ok m ∧
      (∃ x ∈ self, value_selector x = m) ∧ ∀ y ∈ self, value_selector y ≤ m := by
  cases self with
  | nil => exact absurd rfl hne
  | cons a rest =>
    obtain ⟨h1, h2, h3⟩ := fold_descending_greatest value_selector rest (value_selector a)
    refine ⟨_, by rw [max_select, comp_select, comp_select_calls_cons], ?_, ?_⟩
    · rcases h1 with e | ⟨x, hx, e⟩
      · exact ⟨a, List.mem_cons_self _ _, e.symm⟩
      · exact ⟨x, List.mem_cons_of_mem _ hx, e⟩
    · intro y hy
      rcases List.mem_cons.mp hy with e | e
      · subst e; exact h2
      · exact h3 y e

/-- C15: on a non-empty receiver and for an integer-valued selector, `min(value_selector)`
is the least selected value (the value of some element, below or equal to the value of
every element) and `max(value_selector)` is the greatest one; `min()` and `max()` are
`min` and `max` of the identity selector. -/
theorem min_max_extreme {α : Type} (self : List α) (value_selector : α → Int)
    (hne : self ≠ []) :
    (∃ m, min_select self value_selector = Except.ok m ∧
        (∃ x ∈ self, value_selector x = m) ∧ ∀ y ∈ self, m ≤ value_selector y) ∧
      (∃ m, max_select self value_selector = Except.ok m ∧
        (∃ x ∈ self, value_selector x = m) ∧ ∀ y ∈ self, value_selector y ≤ m) ∧
      (∀ ints : List Int, linq_vec.min ints = min_select ints (fun x => x) ∧
        linq_vec.max ints = max_select ints (fun x => x)) :=
  ⟨min_select_least self value_selector hne, max_select_greatest self value_selector hne,
    fun _ => ⟨rfl, rfl⟩⟩

/-- C15 at the receiver `[5, 3, 8, 1]` with the identity selector: `min` and `max` return
values of the receiver that bound every element from below and from above. -/
theorem min_max_extreme_witness :
    ([5, 3, 8, 1] : List Int) ≠ [] ∧
      (∃ m, linq_vec.min ([5, 3, 8, 1] : List Int) = Except.ok m ∧
        (∃ x ∈ ([5, 3, 8, 1] : List Int), x = m) ∧ ∀ y ∈ ([5, 3, 8, 1] : List Int), m ≤ y) ∧
      (∃ m, linq_vec.max ([5, 3, 8, 1] : List Int) = Except.ok m ∧
        (∃ x ∈ ([5, 3, 8, 1] : List Int), x = m) ∧ ∀ y ∈ ([5, 3, 8, 1] : List Int), y ≤ m) :=
  ⟨by decide,
    (min_max_extreme ([5, 3, 8, 1] : List Int) (fun x => x) (by decide)).1,
    (min_max_extreme ([5, 3, 8, 1] : List Int) (fun x => x) (by decide)).2.1⟩

/-- C16: on the empty receiver `min()`, `min(value_selector)`, `max()` and
`max(value_selector)` return the zeroed value `0` without failing, and `comp_select`
returns before any call of the selector. -/
theorem min_max_of_empty {α : Type} (value_selector : α → Int) :
    linq_vec.min ([] : List Int) = Except.ok 0 ∧
      linq_vec.max ([] : List Int) = Except.ok 0 ∧
      min_select ([] : List α) value_selector = Except.ok 0 ∧
      max_select ([] : List α) value_selector = Except.ok 0 ∧
      (∀ pred : Int → Int → Bool,
        comp_select_calls ([] : List α) value_selector pred = Except.ok (0, [])) :=
  ⟨rfl, rfl, rfl, rfl, fun _ => rfl⟩

end linq_vec

/-! ## `map` and `group_by` -/

/-- Lookup after `m[k]` with an update: the entry of `k` holds the updated value, started
from `init` when `k` was absent, and every other entry is unchanged. -/
theorem unordered_map.find_subscript {κ ν : Type} [DecidableEq κ] (init : ν) (f : ν → ν)
    (k k' : κ) :
    ∀ m : unordered_map κ ν,
      unordered_map.find (unordered_map.subscript init f m k) k' =
        if k = k' then some (f ((unordered_map.find m k).getD init))
        else unordered_map.find m k' := by
  intro m
  induction m with
  | nil =>
    by_cases h : k = k'
    · simp [unordered_map.subscript, unordered_map.find, h]
    · simp [unordered_map.subscript, unordered_map.find, h]
  | cons e rest ih =>
    obtain ⟨k0, v⟩ := e
    by_cases h0 : k0 = k
    · subst h0
      by_cases h : k0 = k'
      · simp [unordered_map.subscript, unordered_map.find, h]
      · simp [unordered_map.subscript, unordered_map.find, h]
    · by_cases h : k = k'
      · subst h
        simp [unordered_map.subscript, unordered_map.find, h0, ih]
      · by_cases h1 : k0 = k'
        · subst h1
          simp [unordered_map.subscript, unordered_map.find, h0, h]
        · simp [unordered_map.subscript, unordered_map.find, h0, h1, ih, h]

namespace linq_vec

/-- The loop of `group_by`, started from any map: the group of a key is extended by the
selected values of the receiver's elements with that key, in order; a key no element has
keeps its entry, or its absence. -/
theorem group_by_fold_find {α κ ν : Type} [DecidableEq κ] (key_selector : α → κ)
    (value_selector : α → ν) (K : κ) :
    ∀ (self : List α) (acc : unordered_map κ (List ν)),
      unordered_map.find (self.foldl (fun map x =>
          unordered_map.subscript [] (fun group => group ++ [value_selector x]) map
            (key_selector x)) acc) K =
        if (self.filter (fun x => decide (key_selector x = K))).isEmpty then
          unordered_map.find acc K
        else
          some ((unordered_map.find acc K).getD [] ++
            (self.filter (fun x => decide (key_selector x = K))).map value_selector) := by
  intro self
  induction self with
  | nil => intro acc; simp
  | cons x rest ih =>
    intro acc
    rw [List.foldl_cons, ih, unordered_map.find_subscript]
    by_cases hk : key_selector x = K
    · simp only [hk, if_true, List.filter_cons, decide_True, Option.getD_some,
        List.isEmpty_cons, Bool.false_eq_true, if_false]
      cases rest.filter (fun x => decide (key_selector x = K)) with
      | nil => simp
      | cons y ys => simp
    · simp [hk, List.filter_cons]

/-- The loop of `map`, started from any map: a key is bound to the selected value of the
last element of the receiver with that key; a key no element has keeps its entry, or its
absence. -/
theorem map_fold_find {α κ ν : Type} [DecidableEq κ] (init : ν) (key_selector : α → κ)
    (value_selector : α → ν) (K : κ) :
    ∀ (self : List α) (acc : unordered_map κ ν),
      unordered_map.find (self.foldl (fun map x =>
          unordered_map.subscript init (fun _ => value_selector x) map (key_selector x)) acc) K =
        match (self.filter (fun x => decide (key_selector x = K))).getLast? with
        | some x => some (value_selector x)
        | none => unordered_map.find acc K := by
  intro self
  induction self with
  | nil => intro acc; simp
  | cons x rest ih =>
    intro acc
    rw [List.foldl_cons, ih, unordered_map.find_subscript]
    by_cases hk : key_selector x = K
    · simp only [hk, if_true, List.filter_cons, decide_True, List.getLast?_cons]
      cases (rest.filter (fun x => decide (key_selector x = K))).getLast? <;> simp
    · simp [hk, List.filter_cons]

/-- The reverse iterator loop returns the first match among the visited elements, which
is the head of the filtered list. -/
theorem last_condition_loop_eq_head {α : Type} (condition : α → Bool) (items : List α) :
    last_condition_loop condition items =
      match (items.filter condition).head? with
      | some x => Except.ok x
      | none => Except.error NotFoundError := by
  induction items with
  | nil => simp [last_condition_loop]
  | cons x rest ih =>
    by_cases h : condition x = true
    · simp [last_condition_loop, h]
    · simp [last_condition_loop, h, ih]

/-- The search of `last(condition)` returns the last element of the filtered receiver. -/
theorem last_condition_eq_getLast {α : Type} (condition : α → Bool) (self : List α) :
    last_condition condition self =
      match (self.filter condition).getLast? with
      | some x => Except.ok x
      | none => Except.error NotFoundError := by
  rw [last_condition, last_condition_loop_eq_head, List.filter_reverse,
    List.getLast?_eq_head?_reverse]

/-- Lookup in the result of `group_by(key_selector, value_selector)`. -/
theorem group_by_value_find {α κ ν : Type} [DecidableEq κ] (self : List α)
    (key_selector : α → κ) (value_selector : α → ν) (K : κ) :
    unordered_map.find (group_by_value self key_selector value_selector) K =
      if (self.filter (fun x => decide (key_selector x = K))).isEmpty then none
      else some ((self.filter (fun x => decide (key_selector x = K))).map value_selector) := by
  have h := group_by_fold_find key_selector value_selector K self []
  simpa [group_by_value, unordered_map.find] using h

/-- Lookup in the result of `group_by(key_selector)`. -/
theorem group_by_find {α κ : Type} [DecidableEq κ] (self : List α) (key_selector : α → κ)
    (K : κ) :
    unordered_map.find (group_by self key_selector) K =
      if (self.filter (fun x => decide (key_selector x = K))).isEmpty then none
      else some (self.filter (fun x => decide (key_selector x = K))) := by
  have h := group_by_value_find self key_selector (fun x => x) K
  simpa [group_by, group_by_value] using h

/-- Lookup in the result of `map(key_selector, value_selector)`. -/
theorem map_value_find {α κ ν : Type} [DecidableEq κ] [Inhabited ν] (self : List α)
    (key_selector : α → κ) (value_selector : α → ν) (K : κ) :
    unordered_map.find (map_value self key_selector value_selector) K =
      ((self.filter (fun x => decide (key_selector x = K))).getLast?).map value_selector := by
  have h := map_fold_find (default : ν) key_selector value_selector K self []
  rw [map_value, h]
  cases (self.filter (fun x => decide (key_selector x = K))).getLast? <;>
    simp [unordered_map.find]

/-- Lookup in the result of `map(key_selector)`. -/
theorem map_find {α κ : Type} [DecidableEq κ] [Inhabited α] (self : List α)
    (key_selector : α → κ) (K : κ) :
    unordered_map.find (linq_vec.map self key_selector) K =
      (self.filter (fun x => decide (key_selector x = K))).getLast? := by
  have h := map_value_find self key_selector (fun x => x) K
  simpa [linq_vec.map, map_value] using h

/-- C17: `group_by(key_selector)` maps each key to exactly the list of the elements of the
receiver with that key, in their original relative order, and has no entry for a key no
element has; `group_by(key_selector, value_selector)` maps it to the selected values of
those elements, in that order; `[{a,1},{b,2},{a,3}]` keyed by the first field with the
second as value gives `a -> [1,3]`, `b -> [2]`. -/
theorem group_by_spec {α κ ν : Type} [DecidableEq κ] (self : List α) (key_selector : α → κ)
    (value_selector : α → ν) (K : κ) :
    (unordered_map.find (group_by self key_selector) K =
        if (self.filter (fun x => decide (key_selector x = K))).isEmpty then none
        else some (self.filter (fun x => decide (key_selector x = K)))) ∧
      (unordered_map.find (group_by_value self key_selector value_selector) K =
        if (self.filter (fun x => decide (key_selector x = K))).isEmpty then none
        else some ((self.filter (fun x => decide (key_selector x = K))).map value_selector)) ∧
      unordered_map.find (group_by_value [("a", (1 : Int)), ("b", 2), ("a", 3)]
        (fun p => p.1) (fun p => p.2)) "a" = some [1, 3] ∧
      unordered_map.find (group_by_value [("a", (1 : Int)), ("b", 2), ("a", 3)]
        (fun p => p.1) (fun p => p.2)) "b" = some [2] ∧
      (group_by_value [("a", (1 : Int)), ("b", 2), ("a", 3)]
        (fun p => p.1) (fun p => p.2)).length = 2 :=
  ⟨group_by_find self key_selector K, group_by_value_find self key_selector value_selector K,
    by decide, by decide, by decide⟩

/-- C18: the keys of `map(key_selector)` are exactly the keys of the elements of the
receiver, and each key is bound to the element of greatest index with that key, later
elements overwriting earlier ones; `map(key_selector, value_selector)` binds it to the
selected value of that element. -/
theorem map_spec {α κ ν : Type} [DecidableEq κ] [Inhabited α] [Inhabited ν] (self : List α)
    (key_selector : α → κ) (value_selector : α → ν) (K : κ) :
    ((unordered_map.find (linq_vec.map self key_selector) K).isSome = true ↔
        ∃ x ∈ self, key_selector x = K) ∧
      ((unordered_map.find (map_value self key_selector value_selector) K).isSome = true ↔
        ∃ x ∈ self, key_selector x = K) ∧
      ((∃ x ∈ self, key_selector x = K) →
        ∃ (i : Nat) (h : i < self.length), key_selector (self.get ⟨i, h⟩) = K ∧
          (∀ (j : Nat) (hj : j < self.length), i < j → key_selector (self.get ⟨j, hj⟩) ≠ K) ∧
          unordered_map.find (linq_vec.map self key_selector) K = some (self.get ⟨i, h⟩) ∧
          unordered_map.find (map_value self key_selector value_selector) K =
            some (value_selector (self.get ⟨i, h⟩))) := by
  have hsome : (self.filter (fun x => decide (key_selector x = K))).getLast?.isSome = true ↔
      ∃ x ∈ self, key_selector x = K := by
    rw [List.getLast?_isSome, Ne, List.filter_eq_nil_iff]
    simp
  refine ⟨by rw [map_find]; exact hsome, by rw [map_value_find]; simp, ?_⟩
  intro hex
  have hex1 : ∃ x ∈ self, (fun x => decide (key_selector x = K)) x = true := by
    obtain ⟨x, hx, hk⟩ := hex
    exact ⟨x, hx, by simpa using hk⟩
  obtain ⟨i, hi, hc, hmax, hres⟩ := last_condition_greatest _ self hex1
  have hlast : (self.filter (fun x => decide (key_selector x = K))).getLast? =
      some (self.get ⟨i, hi⟩) := by
    rw [last_condition_eq_getLast] at hres
    cases hg : (self.filter (fun x => decide (key_selector x = K))).getLast? with
    | none => rw [hg] at hres; cases hres
    | some y =>
      rw [hg] at hres
      simp only [Except.ok.injEq] at hres
      rw [hres]
  refine ⟨i, hi, by simpa using hc, ?_, by rw [map_find, hlast],
    by rw [map_value_find, hlast]; rfl⟩
  intro j hj hij
  simpa using hmax j hj hij

/-- C18 at the receiver `[(1, 10), (2, 20), (1, 30)]` keyed by the first field: the key `1`
is bound to the later element `(1, 30)`. -/
theorem map_spec_witness :
    ∃ (i : Nat) (h : i < ([(1, 10), (2, 20), (1, 30)] : List (Int × Int)).length),
      (([(1, 10), (2, 20), (1, 30)] : List (Int × Int)).get ⟨i, h⟩).1 = 1 ∧
      (∀ (j : Nat) (hj : j < ([(1, 10), (2, 20), (1, 30)] : List (Int × Int)).length), i < j →
        (([(1, 10), (2, 20), (1, 30)] : List (Int × Int)).get ⟨j, hj⟩).1 ≠ 1) ∧
      unordered_map.find
          (linq_vec.map ([(1, 10), (2, 20), (1, 30)] : List (Int × Int)) (fun p => p.1)) 1 =
        some (([(1, 10), (2, 20), (1, 30)] : List (Int × Int)).get ⟨i, h⟩) ∧
      unordered_map.find
          (map_value ([(1, 10), (2, 20), (1, 30)] : List (Int × Int)) (fun p => p.1)
            (fun p => p.2)) 1 =
        some ((([(1, 10), (2, 20), (1, 30)] : List (Int × Int)).get ⟨i, h⟩).2) :=
  (map_spec ([(1, 10), (2, 20), (1, 30)] : List (Int × Int)) (fun p => p.1) (fun p => p.2)
    1).2.2 ⟨(1, 30), by decide, rfl⟩

/-! ## What the loop of `reverse` leaves -/

/-- C20: on a receiver of length `n >= 2` (a length a `size_t` can hold) the loop of
`reverse` leaves the original with only its first and last elements exchanged, every
element at the indices `1 .. n - 2` being in its original position; a receiver of
length 1 is left unchanged. -/
theorem reverse_only_exchanges_ends {α : Type} (self : List α)
    (hsize : self.length < SIZE_MAX_SUCC) :
    (2 ≤ self.length →
        ∃ r, reverse self = some r ∧ r.length = self.length ∧
          r[0]? = self[self.length - 1]? ∧ r[self.length - 1]? = self[0]? ∧
          ∀ i, 1 ≤ i → i + 2 ≤ self.length → r[i]? = self[i]?) ∧
      (self.length = 1 → reverse self = some self) := by
  constructor
  · intro hn
    have hne : self ≠ [] := by
      intro h
      rw [h] at hn
      simp at hn
    obtain ⟨r, hr, hl, hspec⟩ := reverse_exchanges_ends self hne hsize
    refine ⟨r, hr, hl, ?_, ?_, ?_⟩ <;> clear hsize hr
    · rw [hspec 0 (by omega), if_pos rfl]
    · rw [hspec (self.length - 1) (by omega), if_neg (by omega), if_pos rfl]
    · intro i h1 h2
      rw [hspec i (by omega), if_neg (by omega), if_neg (by omega)]
  · intro hn
    have hne : self ≠ [] := by
      intro h
      rw [h] at hn
      simp at hn
    obtain ⟨r, hr, hl, hspec⟩ := reverse_exchanges_ends self hne hsize
    rw [hr]
    clear hsize hr
    congr 1
    apply List.ext_getElem?
    intro i
    by_cases hi : i < self.length
    · have hi0 : i = 0 := by omega
      subst hi0
      rw [hspec 0 hi, if_pos rfl, hn]
    · rw [List.getElem?_eq_none (by omega), List.getElem?_eq_none (by omega)]

/-- C20 at the receiver `[1, 2, 3, 4, 5]`: the result has `5` first, `1` last and `2, 3, 4`
where they were. -/
theorem reverse_only_exchanges_ends_witness :
    ([1, 2, 3, 4, 5] : List Int).length < SIZE_MAX_SUCC ∧
      ∃ r, reverse ([1, 2, 3, 4, 5] : List Int) = some r ∧
        r.length = ([1, 2, 3, 4, 5] : List Int).length ∧
        r[0]? = ([1, 2, 3, 4, 5] : List Int)[([1, 2, 3, 4, 5] : List Int).length - 1]? ∧
        r[([1, 2, 3, 4, 5] : List Int).length - 1]? = ([1, 2, 3, 4, 5] : List Int)[0]? ∧
        ∀ i, 1 ≤ i → i + 2 ≤ ([1, 2, 3, 4, 5] : List Int).length →
          r[i]? = ([1, 2, 3, 4, 5] : List Int)[i]? :=
  ⟨by decide,
    (reverse_only_exchanges_ends ([1, 2, 3, 4, 5] : List Int) (by decide)).1 (by decide)⟩

/-- C21: on the empty receiver the decremented `size` is `2 ^ 64 - 1`, the loop test
`0 < size` passes, and the first iteration reads `data[0]` and `data[size - 0]`, both
outside the empty storage: the out-of-bounds branch is reached. -/
theorem reverse_of_empty_indices_outside :
    (([] : List Int).length + SIZE_MAX_SUCC - 1) % SIZE_MAX_SUCC = 18446744073709551615 ∧
      0 < (([] : List Int).length + SIZE_MAX_SUCC - 1) % SIZE_MAX_SUCC ∧
      ¬ (0 < ([] : List Int).length) ∧
      ¬ (18446744073709551615 - 0 < ([] : List Int).length) ∧
      vec_index ([] : List Int) 0 = none ∧
      vec_index ([] : List Int) (18446744073709551615 - 0) = none ∧
      reverse ([] : List Int) = none := by
  decide

end linq_vec

/-! ## `group_by` as a partition -/

/-- The keys after `m[k]`: `k` is added at the end when it was absent. -/
theorem unordered_map.keys_subscript {κ ν : Type} [DecidableEq κ] (init : ν) (f : ν → ν)
    (k : κ) :
    ∀ m : unordered_map κ ν,
      (unordered_map.subscript init f m k).map Prod.fst =
        if k ∈ m.map Prod.fst then m.map Prod.fst else m.map Prod.fst ++ [k] := by
  intro m
  induction m with
  | nil => simp [unordered_map.subscript]
  | cons e rest ih =>
    obtain ⟨k0, v⟩ := e
    by_cases h0 : k0 = k
    · subst h0
      simp [unordered_map.subscript]
    · have h1 : ¬ k = k0 := fun e => h0 e.symm
      simp only [unordered_map.subscript, h0, if_false, List.map_cons, ih, List.mem_cons, h1,
        false_or]
      split_ifs <;> simp

/-- The keys stay pairwise distinct under `m[k]`. -/
theorem unordered_map.keys_nodup_subscript {κ ν : Type} [DecidableEq κ] (init : ν)
    (f : ν → ν) (k : κ) (m : unordered_map κ ν) (h : (m.map Prod.fst).Nodup) :
    ((unordered_map.subscript init f m k).map Prod.fst).Nodup := by
  rw [unordered_map.keys_subscript]
  split_ifs with hk
  · exact h
  · exact List.Nodup.append h (List.nodup_singleton k) (by simpa using hk)

/-- After `m[k].push_back(x)` the groups hold `x` in addition to what they held. -/
theorem unordered_map.groups_subscript_perm {κ ν : Type} [DecidableEq κ] (x : ν) (k : κ) :
    ∀ m : unordered_map κ (List ν),
      ((unordered_map.subscript [] (fun group => group ++ [x]) m k).map Prod.snd).flatten.Perm
        (x :: (m.map Prod.snd).flatten) := by
  intro m
  induction m with
  | nil => simp [unordered_map.subscript]
  | cons e rest ih =>
    obtain ⟨k0, v⟩ := e
    by_cases h0 : k0 = k
    · simp only [unordered_map.subscript, h0, if_true, List.map_cons, List.flatten_cons,
        List.append_assoc, List.singleton_append]
      exact List.perm_middle
    · simp only [unordered_map.subscript, h0, if_false, List.map_cons, List.flatten_cons]
      exact (List.Perm.append_left v ih).trans List.perm_middle

/-- After `m[k].push_back(x)` no group is empty if none was. -/
theorem unordered_map.groups_subscript_nonempty {κ ν : Type} [DecidableEq κ] (x : ν) (k : κ) :
    ∀ m : unordered_map κ (List ν), (∀ g ∈ m.map Prod.snd, g ≠ []) →
      ∀ g ∈ (unordered_map.subscript [] (fun group => group ++ [x]) m k).map Prod.snd,
        g ≠ [] := by
  intro m
  induction m with
  | nil =>
    intro _ g hg
    simp [unordered_map.subscript] at hg
    simp [hg]
  | cons e rest ih =>
    obtain ⟨k0, v⟩ := e
    intro hm g hg
    have hrest : ∀ g ∈ rest.map Prod.snd, g ≠ [] := fun g hg =>
      hm g (by simp only [List.map_cons, List.mem_cons]; exact Or.inr hg)
    by_cases h0 : k0 = k
    · simp only [unordered_map.subscript, h0, if_true, List.map_cons, List.mem_cons] at hg
      rcases hg with e | e
      · simp [e]
      · exact hrest g e
    · simp only [unordered_map.subscript, h0, if_false, List.map_cons, List.mem_cons] at hg
      rcases hg with e | e
      · exact hm g (by simp [e])
      · exact ih hrest g e

namespace linq_vec

/-- The loop of `group_by`, started from any map with distinct keys and no empty group:
the keys stay distinct, no group is empty, and the groups hold the receiver's elements in
addition to what they held. -/
theorem group_by_fold_partition {α κ : Type} [DecidableEq κ] (key_selector : α → κ) :
    ∀ (self : List α) (acc : unordered_map κ (List α)),
      (acc.map Prod.fst).Nodup → (∀ g ∈ acc.map Prod.snd, g ≠ []) →
      ((self.foldl (fun map x =>
          unordered_map.subscript [] (fun group => group ++ [x]) map (key_selector x))
          acc).map Prod.fst).Nodup ∧
      (∀ g ∈ (self.foldl (fun map x =>
          unordered_map.subscript [] (fun group => group ++ [x]) map (key_selector x))
          acc).map Prod.snd, g ≠ []) ∧
      ((self.foldl (fun map x =>
          unordered_map.subscript [] (fun group => group ++ [x]) map (key_selector x))
          acc).map Prod.snd).flatten.Perm ((acc.map Prod.snd).flatten ++ self) := by
  intro self
  induction self with
  | nil =>
    intro acc hk hg
    exact ⟨hk, hg, by simp⟩
  | cons x rest ih =>
    intro acc hk hg
    rw [List.foldl_cons]
    obtain ⟨h1, h2, h3⟩ := ih _
      (unordered_map.keys_nodup_subscript [] (fun group => group ++ [x]) (key_selector x) acc hk)
      (unordered_map.groups_subscript_nonempty x (key_selector x) acc hg)
    refine ⟨h1, h2, h3.trans ?_⟩
    exact (List.Perm.append_right rest
      (unordered_map.groups_subscript_perm x (key_selector x) acc)).trans
      (by simpa using (@List.perm_middle _ x (acc.map Prod.snd).flatten rest).symm)

/-- C22: `group_by(key_selector)` partitions the receiver: the map has one entry per key,
no group is empty, the group sizes sum to the size of the receiver, and the groups
concatenated, in whatever order the map is traversed, are a permutation of the receiver. -/
theorem group_by_partition {α κ : Type} [DecidableEq κ] (self : List α)
    (key_selector : α → κ) :
    ((group_by self key_selector).map Prod.fst).Nodup ∧
      (∀ g ∈ (group_by self key_selector).map Prod.snd, g ≠ []) ∧
      (((group_by self key_selector).map Prod.snd).map List.length).sum = self.length ∧
      ((group_by self key_selector).map Prod.snd).flatten.Perm self ∧
      (∀ entries : List (κ × List α), entries.Perm (group_by self key_selector) →
        (entries.map Prod.snd).flatten.Perm self) := by
  obtain ⟨h1, h2, h3⟩ := group_by_fold_partition key_selector self []
    (by simp) (by simp)
  have h4 : ((group_by self key_selector).map Prod.snd).flatten.Perm self := by
    simpa [group_by] using h3
  refine ⟨h1, h2, ?_, h4, ?_⟩
  · rw [← List.length_flatten]
    exact h4.length_eq
  · intro entries hp
    exact ((hp.map Prod.snd).flatten).trans h4

/-- C23: `map(key_selector)` and `group_by(key_selector)` have the same keys, and for every
key of them the element `map` binds to it is the last element of the group `group_by`
binds to it. -/
theorem map_eq_last_of_group {α κ : Type} [DecidableEq κ] [Inhabited α] (self : List α)
    (key_selector : α → κ) (K : κ) :
    ((unordered_map.find (linq_vec.map self key_selector) K).isSome =
        (unordered_map.find (group_by self key_selector) K).isSome) ∧
      (∀ group, unordered_map.find (group_by self key_selector) K = some group →
        ∃ x, group.getLast? = some x ∧
          unordered_map.find (linq_vec.map self key_selector) K = some x) ∧
      (unordered_map.find (group_by self key_selector) K = none →
        unordered_map.find (linq_vec.map self key_selector) K = none) := by
  rw [map_find, group_by_find]
  cases hf : self.filter (fun x => decide (key_selector x = K)) with
  | nil => simp
  | cons y ys =>
    refine ⟨by simp [List.getLast?_cons], ?_, by simp⟩
    intro group hg
    simp only [List.isEmpty_cons, Bool.false_eq_true, if_false, Option.some.injEq] at hg
    subst hg
    exact ⟨_, List.getLast?_cons, List.getLast?_cons⟩

/-- C23 at the receiver `[(1, 10), (2, 20), (1, 30)]` keyed by the first field: the group of
the key `1` is `[(1, 10), (1, 30)]` and `map` binds `1` to its last element `(1, 30)`. -/
theorem map_eq_last_of_group_witness :
    unordered_map.find (group_by ([(1, 10), (2, 20), (1, 30)] : List (Int × Int))
        (fun p => p.1)) 1 = some [(1, 10), (1, 30)] ∧
      ∃ x, ([(1, 10), (1, 30)] : List (Int × Int)).getLast? = some x ∧
        unordered_map.find (linq_vec.map ([(1, 10), (2, 20), (1, 30)] : List (Int × Int))
          (fun p => p.1)) 1 = some x :=
  ⟨by decide,
    (map_eq_last_of_group ([(1, 10), (2, 20), (1, 30)] : List (Int × Int)) (fun p => p.1)
      1).2.1 [(1, 10), (1, 30)] (by decide)⟩

/-! ## `min` and `max` against `orderby` -/

/-- On a non-empty receiver of integers `min()` is the first element of the receiver
sorted ascending. -/
theorem min_eq_first_orderby_ascending (self : List Int) (hne : self ≠ []) :
    linq_vec.min self = first (orderby self ascending) := by
  obtain ⟨m, hm, ⟨x, hx, hxm⟩, hle⟩ := min_select_least self (fun x => x) hne
  have hperm : (orderby self ascending).Perm self := std_sort_perm _ _
  have hsorted : (orderby self ascending).Pairwise (fun a b => a ≤ b) :=
    std_sort_ascending_sorted self
  have hmin : linq_vec.min self = Except.ok m := hm
  rw [hmin]
  cases hs : orderby self ascending with
  | nil =>
    rw [hs] at hperm
    exact absurd hperm.symm.eq_nil hne
  | cons h t =>
    rw [hs] at hperm hsorted
    have h1 : m ≤ h := hle h (hperm.mem_iff.mp (List.mem_cons_self _ _))
    have hmem : m ∈ h :: t := hperm.mem_iff.mpr (by simpa [← hxm] using hx)
    have h2 : h ≤ m := by
      rcases List.mem_cons.mp hmem with e | e
      · exact le_of_eq e.symm
      · exact (List.pairwise_cons.mp hsorted).1 m e
    have : m = h := le_antisymm h1 h2
    simp [first, this]

/-- On a non-empty receiver of integers `max()` is the first element of the receiver
sorted descending. -/
theorem max_eq_first_orderby_descending (self : List Int) (hne : self ≠ []) :
    linq_vec.max self = first (orderby self descending) := by
  obtain ⟨m, hm, ⟨x, hx, hxm⟩, hle⟩ := max_select_greatest self (fun x => x) hne
  have hperm : (orderby self descending).Perm self := std_sort_perm _ _
  have hsorted : (orderby self descending).Pairwise (fun a b => b ≤ a) :=
    std_sort_descending_sorted self
  have hmax : linq_vec.max self = Except.ok m := hm
  rw [hmax]
  cases hs : orderby self descending with
  | nil =>
    rw [hs] at hperm
    exact absurd hperm.symm.eq_nil hne
  | cons h t =>
    rw [hs] at hperm hsorted
    have h1 : h ≤ m := hle h (hperm.mem_iff.mp (List.mem_cons_self _ _))
    have hmem : m ∈ h :: t := hperm.mem_iff.mpr (by simpa [← hxm] using hx)
    have h2 : m ≤ h := by
      rcases List.mem_cons.mp hmem with e | e
      · exact le_of_eq e
      · exact (List.pairwise_cons.mp hsorted).1 m e
    have : m = h := le_antisymm h2 h1
    simp [first, this]

/-- C24: on a non-empty receiver of integers `min()` is `first()` of the receiver after
`orderby(ascending())` and `max()` is `first()` of the receiver after
`orderby(descending())`; on every receiver, the empty one included, `min()` and `max()`
return values with `min() <= max()`. -/
theorem min_max_first_of_orderby (self : List Int) :
    (self ≠ [] →
        linq_vec.min self = first (orderby self ascending) ∧
        linq_vec.max self = first (orderby self descending)) ∧
      ∃ lo hi, linq_vec.min self = Except.ok lo ∧ linq_vec.max self = Except.ok hi ∧
        lo ≤ hi := by
  refine ⟨fun hne => ⟨min_eq_first_orderby_ascending self hne,
    max_eq_first_orderby_descending self hne⟩, ?_⟩
  by_cases hne : self = []
  · subst hne
    exact ⟨0, 0, rfl, rfl, le_refl _⟩
  · obtain ⟨lo, hlo, ⟨x, hx, hxl⟩, hle⟩ := min_select_least self (fun x => x) hne
    obtain ⟨hi, hhi, _, hge⟩ := max_select_greatest self (fun x => x) hne
    exact ⟨lo, hi, hlo, hhi, le_trans (hle x hx) (hge x hx)⟩

/-- C24 at the receiver `[5, 3, 8, 1]`: `min()` is the first element of the ascending
order and `max()` the first element of the descending order. -/
theorem min_max_first_of_orderby_witness :
    ([5, 3, 8, 1] : List Int) ≠ [] ∧
      linq_vec.min ([5, 3, 8, 1] : List Int) =
        first (orderby ([5, 3, 8, 1] : List Int) ascending) ∧
      linq_vec.max ([5, 3, 8, 1] : List Int) =
        first (orderby ([5, 3, 8, 1] : List Int) descending) :=
  ⟨by decide, (min_max_first_of_orderby ([5, 3, 8, 1] : List Int)).1 (by decide)⟩

end linq_vec

end linq
